import Mathlib

/-
  Verification of the sontag template engine (marceljs/sontag) against its
  natural-language specification.

  Shallow embedding notes:
  - Strings from the JavaScript source are modelled as `List Char` (`Str`),
    so that all definitions are structurally recursive and reduce by `decide`
    and `rfl`.
  - `Sontag.parse` (src/index.js) splits the input on the six two-character
    delimiters and folds a step function over the items, maintaining a
    context stack and an insertion cursor into the tree being built.  The
    symbol-tree library used by the source (appendChild / parent) is
    modelled by a zipper: the cursor node's data, its children built so far,
    and the stack of ancestors, each with the children they had accumulated
    before the cursor was entered.
  - JavaScript regular expressions are modelled by functions computing the
    same match (derivations are documented at each definition).
  - Braces in string and character literals are written with the escapes
    \x7b and \x7d.
-/

namespace SontagM

abbrev Str := List Char

/-- Whitespace per the JavaScript regex class backslash-s, restricted to the
ASCII range (the Unicode space characters are not modelled). -/
def isWS (c : Char) : Bool :=
  c == ' ' || c == '\t' || c == '\n' || c == '\r' || c == '\x0b' || c == '\x0c'

/-- JavaScript String.prototype.trim: drop whitespace from both ends. -/
def trimL (s : Str) : Str :=
  ((s.dropWhile isWS).reverse.dropWhile isWS).reverse

/- The six delimiter tokens of src/index.js (TSTART, TEND, ESTART, EEND,
   CSTART, CEND). -/

def cTSTART : Str := ['\x7b', '%']
def cTEND : Str := ['%', '\x7d']
def cESTART : Str := ['\x7b', '\x7b']
def cEEND : Str := ['\x7d', '\x7d']
def cCSTART : Str := ['\x7b', '#']
def cCEND : Str := ['#', '\x7d']

/-- Does the two-character window form one of the six delimiters?  At any
fixed position at most one of the six distinct two-character alternatives
of the split regex can match, so the alternation order of the source regex
is immaterial. -/
def delim2 (a b : Char) : Bool :=
  ([a, b] = cTSTART) || ([a, b] = cTEND) || ([a, b] = cESTART) ||
  ([a, b] = cEEND) || ([a, b] = cCSTART) || ([a, b] = cCEND)

/-- `contents.split(regex)` with the capturing six-delimiter regex: a
left-to-right scan that cuts out each delimiter occurrence and keeps the
literal runs (including empty runs between adjacent delimiters and at the
ends), interleaving them with the delimiters.  `acc` holds the current
literal run reversed. -/
def tokScan : Str → Str → List Str
  | acc, [] => [acc.reverse]
  | acc, [a] => (a :: acc).reverse :: []
  | acc, a :: b :: rest =>
    if delim2 a b then acc.reverse :: [a, b] :: tokScan [] rest
    else tokScan (a :: acc) (b :: rest)

def tokenize (s : Str) : List Str := tokScan [] s

/-- The capture that the regex TAG assigns to the signature group when the
text after the name group is the nonempty remainder `' ' :: sig` (used when
analysing printed tag interiors). -/
def sigCapture (sig : Str) : Str :=
  let r := ' ' :: sig
  let r2 := r.dropWhile isWS
  if r2 = [] then r.drop (r.length - 1) else r2

/-- The regex `TAG = /^\s*([^\s]+)\s*([^]+)$/` of src/index.js, applied by
`String.prototype.match`; returns the two captured groups.

Derivation of the backtracking semantics: the leading `\s*` must consume
exactly the maximal whitespace prefix (shrinking it would force `[^\s]+` to
start on a whitespace character).  `[^\s]+` then greedily takes the maximal
nonspace run `w`; the rest of the input is `r`.
- If `r` is nonempty the match succeeds with name `w`: the middle `\s*`
  takes the whitespace prefix of `r` and `[^]+` the remainder, except when
  `r` is all whitespace, in which case the middle `\s*` backtracks to leave
  exactly the last character for `[^]+`.
- If `r` is empty, `[^]+` has nothing to match, so `[^\s]+` backtracks by
  one character: the match succeeds only when `w` has at least two
  characters, with name `w` minus its last character and signature that
  last character. -/
def tagMatch (s : Str) : Option (Str × Str) :=
  let t := s.dropWhile isWS
  let w := t.takeWhile (fun c => !(isWS c))
  let r := t.drop w.length
  if w = [] then none
  else if r = [] then
    if 2 ≤ w.length then some (w.dropLast, w.drop (w.length - 1)) else none
  else
    let r2 := r.dropWhile isWS
    if r2 = [] then some (w, r.drop (r.length - 1)) else some (w, r2)

/-- The role stored in the tag registry alongside the tag constructor:
`$tag_start`, `$tag_inside` or `$tag_end` from node-types.js. -/
inductive Role where
  | start
  | inside
  | close
deriving DecidableEq

/-- Node payloads.  A tag constructor (JavaScript class identity) is
modelled by a `Nat` tag-family identifier. -/
inductive NK where
  | root
  | text (s : Str)
  | expr (s : Str)
  | tagNode (fam : Nat) (role : Role) (name : Str) (sig : Str) (singular : Bool)
deriving DecidableEq

/-- The ownership tree built by parse. -/
inductive Tree where
  | node : NK → List Tree → Tree

/-- The insertion cursor into the tree under construction, modelling the
symbol-tree cursor `$head`: the cursor node's payload, the children
appended under it so far, and for each ancestor its payload and the
children it had accumulated before the cursor subtree was entered. -/
structure Zipper where
  cur : NK
  ch : List Tree
  anc : List (NK × List Tree)

/-- The context stack values of parse ("content", "tag", "expression",
"comment"). -/
inductive Ctx where
  | content
  | tag
  | expression
  | comment
deriving DecidableEq

structure PState where
  stack : List Ctx
  z : Zipper

/-- Parse-time error taxonomy (§7 of the spec), mapping the source's thrown
messages: "Unexpected item" to `syntaxError`, "Missing tag" to
`malformedTag`, "Unknown tag" to `unknownTag`, "Can't close / Can't
include" to `mismatchedClose`, and "Unexpected end of template" / "left
unclosed" to `unterminated`. -/
inductive Err where
  | syntaxError (item : Str)
  | malformedTag
  | unknownTag (name : Str)
  | mismatchedClose
  | unterminated
deriving DecidableEq

/-- The tag registry `this.tags`: name to (constructor, role). -/
def Registry := Str → Option (Nat × Role)

def push (st : PState) (c : Ctx) : PState := { st with stack := c :: st.stack }

def popCtx (st : PState) : PState := { st with stack := st.stack.tail }

/-- `stack[stack.length - 1]`; the stack is never empty in reachable
states. -/
def topCtx (st : PState) : Ctx := st.stack.headD .content

def appendLeaf (z : Zipper) (d : NK) : Zipper :=
  { z with ch := z.ch ++ [Tree.node d []] }

def descend (z : Zipper) (d : NK) : Zipper :=
  ⟨d, [], (z.cur, z.ch) :: z.anc⟩

/-- The tree-builder dispatch of parse (src/index.js lines 197-219) on a
constructed TagNode: append / move the cursor according to the role, with
the `$head.constructor !== ctor || !parent` checks. -/
def buildStep (fam : Nat) (role : Role) (sing : Bool) (name sig : Str)
    (z : Zipper) : Except Err Zipper :=
  match role with
  | .start =>
    if sing then .ok (appendLeaf z (.tagNode fam .start name sig sing))
    else .ok (descend z (.tagNode fam .start name sig sing))
  | .close =>
    match z.cur, z.anc with
    | .tagNode fam2 r2 n2 s2 g2, (pd, pch) :: anc2 =>
      if fam2 = fam then
        match r2 with
        | .start => .ok ⟨pd, pch ++ [Tree.node (.tagNode fam2 r2 n2 s2 g2) z.ch], anc2⟩
        | .inside =>
          match anc2 with
          | (qd, qch) :: anc3 =>
            .ok ⟨qd, qch ++ [Tree.node pd (pch ++ [Tree.node (.tagNode fam2 r2 n2 s2 g2) z.ch])], anc3⟩
          | [] =>
            -- Unreachable: an Inside cursor's parent is a Start or Inside
            -- node, which itself always has a parent; the source would set
            -- the cursor to null here.
            .error .mismatchedClose
        | .close =>
          -- Unreachable: a close-role node never becomes the cursor; the
          -- source falls through both $typeof branches leaving $head as is.
          .ok z
      else .error .mismatchedClose
    | _, _ => .error .mismatchedClose
  | .inside =>
    match z.cur, z.anc with
    | .tagNode fam2 _ _ _ _, _ :: _ =>
      if fam2 = fam then .ok (descend z (.tagNode fam .inside name sig sing))
      else .error .mismatchedClose
    | _, _ => .error .mismatchedClose

/-- The tag-scope literal branch of parse: match the interior against TAG,
look the name up in the registry, construct the node with the trimmed
signature, and run the tree-builder dispatch. -/
def tagStep (R : Registry) (sing : Nat → Bool) (item : Str) (st : PState) :
    Except Err PState :=
  match tagMatch item with
  | none => .error .malformedTag
  | some (tagName, signature) =>
    match R tagName with
    | none => .error (.unknownTag tagName)
    | some (fam, role) =>
      match buildStep fam role (sing fam) tagName (trimL signature) st.z with
      | .error e => .error e
      | .ok z2 => .ok { st with z := z2 }

/-- One iteration of the parse loop of src/index.js on the current item,
with the branches in source order: CSTART (unconditional push), CEND,
comment absorption, ESTART, TSTART, EEND, TEND, then the literal branches
for the content / expression / tag scopes. -/
def step (R : Registry) (sing : Nat → Bool) (st : PState) (item : Str) :
    Except Err PState :=
  if item = cCSTART then .ok (push st .comment)
  else if item = cCEND then
    if topCtx st = .comment then .ok (popCtx st) else .error (.syntaxError item)
  else if topCtx st = .comment then .ok st
  else if item = cESTART then
    if topCtx st = .content then .ok (push st .expression)
    else .error (.syntaxError item)
  else if item = cTSTART then
    if topCtx st = .content then .ok (push st .tag)
    else .error (.syntaxError item)
  else if item = cEEND then
    if topCtx st = .expression then .ok (popCtx st)
    else .error (.syntaxError item)
  else if item = cTEND then
    if topCtx st = .tag then .ok (popCtx st)
    else .error (.syntaxError item)
  else
    match topCtx st with
    | .content => .ok { st with z := appendLeaf st.z (.text item) }
    | .expression => .ok { st with z := appendLeaf st.z (.expr item) }
    | .tag => tagStep R sing item st
    | .comment => .ok st

def runItems (R : Registry) (sing : Nat → Bool) :
    List Str → PState → Except Err PState
  | [], st => .ok st
  | item :: rest, st =>
    match step R sing st item with
    | .error e => .error e
    | .ok st2 => runItems R sing rest st2

def initState : PState := ⟨[.content], ⟨.root, [], []⟩⟩

/-- parse after the loop: the stack must be back to depth 1 and the cursor
must be the root, otherwise the template is rejected; on success the root
node with its accumulated children is returned. -/
def parseItems (R : Registry) (sing : Nat → Bool) (items : List Str) :
    Except Err Tree :=
  match runItems R sing items initState with
  | .error e => .error e
  | .ok st =>
    if st.stack.length ≠ 1 then .error .unterminated
    else
      match st.z with
      | ⟨NK.root, ch, []⟩ => .ok (Tree.node NK.root ch)
      | _ => .error .unterminated

/-- `Sontag.parse`: tokenize, fold the step function, final checks. -/
def parse (R : Registry) (sing : Nat → Bool) (s : String) : Except Err Tree :=
  parseItems R sing (tokenize s.data)

/-- The tag family of a node, when it is a tag node (the constructor
identity compared by `$head.constructor !== ctor`). -/
def famOf : NK → Option Nat
  | .tagNode fam _ _ _ _ => some fam
  | _ => none

/- Flattening the Text / Expression leaves of the tree in document order. -/

def leafPayload : NK → List Str
  | .text s => [s]
  | .expr s => [s]
  | _ => []

mutual

def flattenT : Tree → List Str
  | .node d cs => leafPayload d ++ flattenF cs

def flattenF : List Tree → List Str
  | [] => []
  | t :: ts => flattenT t ++ flattenF ts

end

/-
  The earlier unnamed engine (Feuille, src/unnamed/part_000).  Its parse
  differs from Sontag.parse in the tag-scope literal branch only: a
  different tag regex, the node keeps the regex capture without a further
  trim, closing always pops a single level, and the Inside role is a stub
  that discards the node.  The branch order also checks EEND before TSTART,
  which cannot change the result since an item equals at most one token.
-/

/-- The Feuille tag regex: a match of
`/^\s*([^\s]+)\s*(.*?)\s*$/` where dot does not match newline.

Derivation: the leading `\s*` and `([^\s]+)` behave as in TAG, producing
the maximal nonspace run `w`.  The middle `\s*` greedily eats whitespace,
the lazy `(.*?)` grows from the shortest prefix and `\s*$` must absorb the
rest, so the signature capture is the remainder trimmed of surrounding
whitespace; since the dot cannot cross a newline, the match (on every
backtracking attempt) fails when that trimmed remainder still contains a
newline. -/
def feuilleTagMatch (s : Str) : Option (Str × Str) :=
  let t := s.dropWhile isWS
  let w := t.takeWhile (fun c => !(isWS c))
  let r := t.drop w.length
  if w = [] then none
  else
    let sigc := trimL r
    if sigc.contains '\n' then none else some (w, sigc)

/-- The tree-builder dispatch of Feuille.parse (part_000 lines 148-161):
closing pops exactly one level, the Inside branch is `// todo` and does
nothing. -/
def feuilleBuildStep (fam : Nat) (role : Role) (sing : Bool) (name sig : Str)
    (z : Zipper) : Except Err Zipper :=
  match role with
  | .start =>
    if sing then .ok (appendLeaf z (.tagNode fam .start name sig sing))
    else .ok (descend z (.tagNode fam .start name sig sing))
  | .close =>
    match z.cur, z.anc with
    | .tagNode fam2 r2 n2 s2 g2, (pd, pch) :: anc2 =>
      if fam2 = fam then
        .ok ⟨pd, pch ++ [Tree.node (.tagNode fam2 r2 n2 s2 g2) z.ch], anc2⟩
      else .error .mismatchedClose
    | _, _ => .error .mismatchedClose
  | .inside => .ok z

def feuilleTagStep (R : Registry) (sing : Nat → Bool) (item : Str)
    (st : PState) : Except Err PState :=
  match feuilleTagMatch item with
  | none => .error .malformedTag
  | some (tagName, signature) =>
    match R tagName with
    | none => .error (.unknownTag tagName)
    | some (fam, role) =>
      match feuilleBuildStep fam role (sing fam) tagName signature st.z with
      | .error e => .error e
      | .ok z2 => .ok { st with z := z2 }

/-- One iteration of the Feuille.parse loop, branches in its source order:
CSTART, CEND, comment absorption, ESTART, EEND, TSTART, TEND, literals. -/
def feuilleStep (R : Registry) (sing : Nat → Bool) (st : PState)
    (item : Str) : Except Err PState :=
  if item = cCSTART then .ok (push st .comment)
  else if item = cCEND then
    if topCtx st = .comment then .ok (popCtx st) else .error (.syntaxError item)
  else if topCtx st = .comment then .ok st
  else if item = cESTART then
    if topCtx st = .content then .ok (push st .expression)
    else .error (.syntaxError item)
  else if item = cEEND then
    if topCtx st = .expression then .ok (popCtx st)
    else .error (.syntaxError item)
  else if item = cTSTART then
    if topCtx st = .content then .ok (push st .tag)
    else .error (.syntaxError item)
  else if item = cTEND then
    if topCtx st = .tag then .ok (popCtx st)
    else .error (.syntaxError item)
  else
    match topCtx st with
    | .content => .ok { st with z := appendLeaf st.z (.text item) }
    | .expression => .ok { st with z := appendLeaf st.z (.expr item) }
    | .tag => feuilleTagStep R sing item st
    | .comment => .ok st

def feuilleRun (R : Registry) (sing : Nat → Bool) :
    List Str → PState → Except Err PState
  | [], st => .ok st
  | item :: rest, st =>
    match feuilleStep R sing st item with
    | .error e => .error e
    | .ok st2 => feuilleRun R sing rest st2

def feuilleParseItems (R : Registry) (sing : Nat → Bool) (items : List Str) :
    Except Err Tree :=
  match feuilleRun R sing items initState with
  | .error e => .error e
  | .ok st =>
    if st.stack.length ≠ 1 then .error .unterminated
    else
      match st.z with
      | ⟨NK.root, ch, []⟩ => .ok (Tree.node NK.root ch)
      | _ => .error .unterminated

def feuilleParse (R : Registry) (sing : Nat → Bool) (s : String) :
    Except Err Tree :=
  feuilleParseItems R sing (tokenize s.data)

/-
  The tag registry and `Sontag.addTag` (src/index.js lines 272-283).
-/

/-- A registered plugin: its opening names (static tagNames), its inside
names (static insideTagNames), its singular flag, and the tag-family
identity standing for the constructor. -/
structure TagDescriptor where
  tagNames : List Str
  insideTagNames : List Str
  singular : Bool
  fam : Nat

def upd (t : Registry) (k : Str) (v : Nat × Role) : Registry :=
  fun n => if n = k then some v else t n

/-- The "end" closing-marker prefix. -/
def endK : Str := ['e', 'n', 'd']

/-- The first forEach loop of addTag: each opening name routes to
(ctor, start), and, when the descriptor is not singular, "end" + name
routes to (ctor, end). -/
def addTagStarts (fam : Nat) (sng : Bool) (l : List Str) (t : Registry) :
    Registry :=
  l.foldl (fun acc n =>
    let acc2 := upd acc n (fam, Role.start)
    if sng then acc2 else upd acc2 (endK ++ n) (fam, Role.close)) t

/-- The second forEach loop of addTag: each inside name routes to
(ctor, inside). -/
def addTagInsides (fam : Nat) (l : List Str) (t : Registry) : Registry :=
  l.foldl (fun acc n => upd acc n (fam, Role.inside)) t

/-- `addTag`: the two loops in source order.  Later writes overwrite
earlier ones, as with assignments to `this.tags`. -/
def addTag (d : TagDescriptor) (t : Registry) : Registry :=
  addTagInsides d.fam d.insideTagNames
    (addTagStarts d.fam d.singular d.tagNames t)

/-
  A grammar of well-nested templates, used to settle the round-trip claim:
  text runs, expressions, comments (which nest, see the comment-open
  branch of `step`), singular tags, and non-singular tag blocks carrying at
  most one Inside divider (the tree builder's Inside handling descends one
  level per divider but its End handling pops exactly two, so a block with
  two or more dividers never returns the cursor to the block's parent).
  The grammar is a cons-list: every constructor carries the rest of the
  template.
-/

/-- Body of a comment: absorbed items interleaved with nested comments. -/
inductive CB where
  | nil : CB
  | item : Str → CB → CB
  | nest : CB → CB → CB

/-- Well-nested template skeletons. `block name sig body endName rest` is
a non-singular tag block; `block2 name sig body insideName insideSig
insideBody endName rest` is one with a single Inside divider. -/
inductive Tpl where
  | nil : Tpl
  | text : Str → Tpl → Tpl
  | expr : Str → Tpl → Tpl
  | comment : CB → Tpl → Tpl
  | stag : Str → Str → Tpl → Tpl
  | block : Str → Str → Tpl → Str → Tpl → Tpl
  | block2 : Str → Str → Tpl → Str → Str → Tpl → Str → Tpl → Tpl

/-- A literal item that is not one of the six delimiter tokens. -/
def notTok (s : Str) : Bool :=
  decide (s ≠ cTSTART) && decide (s ≠ cTEND) && decide (s ≠ cESTART) &&
  decide (s ≠ cEEND) && decide (s ≠ cCSTART) && decide (s ≠ cCEND)

/-- A usable tag name: nonempty and free of whitespace. -/
def goodName (n : Str) : Bool :=
  decide (n ≠ []) && n.all (fun c => !(isWS c))

def WFcb : CB → Bool
  | .nil => true
  | .item s cb => decide (s ≠ cCSTART) && decide (s ≠ cCEND) && WFcb cb
  | .nest inner rest => WFcb inner && WFcb rest

/-- Well-formedness of a template skeleton with respect to a registry:
literal runs are not delimiter tokens, tag names are registered with the
expected roles and matching families, and singular flags agree. -/
def WFtpl (R : Registry) (sing : Nat → Bool) : Tpl → Bool
  | .nil => true
  | .text s r => notTok s && WFtpl R sing r
  | .expr s r => notTok s && WFtpl R sing r
  | .comment cb r => WFcb cb && WFtpl R sing r
  | .stag n _ r =>
    goodName n &&
    (match R n with
     | some (fam, Role.start) => sing fam
     | _ => false) &&
    WFtpl R sing r
  | .block n _ body en r =>
    goodName n && goodName en &&
    (match R n, R en with
     | some (fam, Role.start), some (fam2, Role.close) =>
       !(sing fam) && decide (fam2 = fam)
     | _, _ => false) &&
    WFtpl R sing body && WFtpl R sing r
  | .block2 n _ body inm _ ibody en r =>
    goodName n && goodName inm && goodName en &&
    (match R n, R inm, R en with
     | some (fam, Role.start), some (fam3, Role.inside),
       some (fam2, Role.close) =>
       !(sing fam) && decide (fam3 = fam) && decide (fam2 = fam)
     | _, _, _ => false) &&
    WFtpl R sing body && WFtpl R sing ibody && WFtpl R sing r

/-- The tag interior emitted for name `n` and signature `sig`: the name, a
space, the signature. -/
def mkInterior (n sig : Str) : Str := n ++ ' ' :: sig

def printCB : CB → List Str
  | .nil => []
  | .item s cb => s :: printCB cb
  | .nest inner rest => cCSTART :: printCB inner ++ cCEND :: printCB rest

/-- The item sequence of a template skeleton. -/
def printT : Tpl → List Str
  | .nil => []
  | .text s r => s :: printT r
  | .expr s r => cESTART :: s :: cEEND :: printT r
  | .comment cb r => cCSTART :: printCB cb ++ cCEND :: printT r
  | .stag n sig r => cTSTART :: mkInterior n sig :: cTEND :: printT r
  | .block n sig body en r =>
    cTSTART :: mkInterior n sig :: cTEND ::
      (printT body ++ cTSTART :: mkInterior en [] :: cTEND :: printT r)
  | .block2 n sig body inm insig ibody en r =>
    cTSTART :: mkInterior n sig :: cTEND ::
      (printT body ++ cTSTART :: mkInterior inm insig :: cTEND ::
        (printT ibody ++ cTSTART :: mkInterior en [] :: cTEND :: printT r))

def famOfR (R : Registry) (n : Str) : Nat :=
  match R n with
  | some (fam, _) => fam
  | none => 0

/-- The forest of tree nodes that parsing the printed skeleton appends
under the enclosing cursor. -/
def forest (R : Registry) (sing : Nat → Bool) : Tpl → List Tree
  | .nil => []
  | .text s r => Tree.node (.text s) [] :: forest R sing r
  | .expr s r => Tree.node (.expr s) [] :: forest R sing r
  | .comment _ r => forest R sing r
  | .stag n sig r =>
    Tree.node (.tagNode (famOfR R n) .start n (trimL sig) (sing (famOfR R n))) [] ::
      forest R sing r
  | .block n sig body _ r =>
    Tree.node (.tagNode (famOfR R n) .start n (trimL sig) (sing (famOfR R n)))
      (forest R sing body) :: forest R sing r
  | .block2 n sig body inm insig ibody _ r =>
    Tree.node (.tagNode (famOfR R n) .start n (trimL sig) (sing (famOfR R n)))
      (forest R sing body ++
        [Tree.node (.tagNode (famOfR R inm) .inside inm (trimL insig)
           (sing (famOfR R inm))) (forest R sing ibody)]) ::
      forest R sing r

/-- The literal and expression content of a template skeleton, in document
order, with tag markup, comments and delimiters excluded (the spec's
description of the flattening). -/
def specContent : Tpl → List Str
  | .nil => []
  | .text s r => s :: specContent r
  | .expr s r => s :: specContent r
  | .comment _ r => specContent r
  | .stag _ _ r => specContent r
  | .block _ _ body _ r => specContent body ++ specContent r
  | .block2 _ _ body _ _ ibody _ r =>
    specContent body ++ specContent ibody ++ specContent r

/-
  The render engine (`Sontag.apply`, src/index.js lines 239-255) and the
  deferred branch-selection protocol.  Awaitable work is modelled by
  pairing every produced value with an accumulated delay counter
  (`Async`); awaiting a value reads its payload and can never observe or
  be reordered by the delay.  The selector ("condition") is modelled as
  `Option Nat`: `none` is the absent / undefined selector.
-/

structure Async (α : Type) where
  delay : Nat
  val : α

/-- What a tag's render may return: a resolved string, or a deferred value,
a function from the selector to the string. -/
inductive RenderResult where
  | resolved : Str → RenderResult
  | deferred : (Option Nat → Str) → RenderResult

/-- The render implementations of the registered tags (and of Root, Text
and Expression): given the node payload, the scope, and the
children-renderer closure, produce a render result, possibly after
suspended work.  The `env` argument of the source (the engine itself) is
not modelled. -/
def RenderImpl (σ : Type) : Type :=
  NK → σ → (σ → Option Nat → Async Str) → Async RenderResult

/-- Await a list of suspended strings one after the other and join the
results in list order (the loop of the childrenRenderer closure). -/
def joinA (xs : List (Async Str)) : Async Str :=
  ⟨xs.foldl (fun a x => a + x.delay) 0, (xs.map Async.val).flatten⟩

/-- `Sontag.apply`: invoke the node's render with the children-renderer
closure; if the result is a function, invoke it with the selector that was
passed into this apply call. -/
def applyNode {σ : Type} (R : RenderImpl σ) (t : Tree) (scope : σ)
    (cond : Option Nat) : Async Str :=
  match t with
  | .node d cs =>
    let res := R d scope (fun outerScope cond2 =>
      joinA (cs.attach.map (fun c => applyNode R c.1 outerScope cond2)))
    match res.val with
    | .resolved s => ⟨res.delay, s⟩
    | .deferred f => ⟨res.delay, f cond⟩
termination_by sizeOf t
decreasing_by
  have h1 : sizeOf c.1 < sizeOf cs := List.sizeOf_lt_of_mem c.2
  simp only [Tree.node.sizeOf_spec]
  omega

/-- The childrenRenderer closure handed to a node's render: apply every
child in document order with the scope and selector supplied by the
render, and join the results. -/
def childrenRenderer {σ : Type} (R : RenderImpl σ) (cs : List Tree) :
    σ → Option Nat → Async Str :=
  fun outerScope cond2 =>
    joinA (cs.attach.map (fun c => applyNode R c.1 outerScope cond2))

/-
  The scope objects (`Sontag.renderString`, `Sontag.constructor`,
  src/tags/apply.js).  A JavaScript object is its ordered own-property
  list together with an optional prototype object; values are abstract.
-/

inductive JSObj (V : Type) where
  | mk : List (Str × V) → Option (JSObj V) → JSObj V

def own {V : Type} : JSObj V → List (Str × V)
  | .mk o _ => o

def proto {V : Type} : JSObj V → Option (JSObj V)
  | .mk _ p => p

/-- Own-property lookup. -/
def ownGet {V : Type} : List (Str × V) → Str → Option V
  | [], _ => none
  | (k2, v2) :: rest, k => if k = k2 then some v2 else ownGet rest k

/-- Property assignment: overwrite in place or append. -/
def setK {V : Type} : List (Str × V) → Str → V → List (Str × V)
  | [], k, v => [(k, v)]
  | (k2, v2) :: rest, k, v =>
    if k = k2 then (k2, v) :: rest else (k2, v2) :: setK rest k v

def isOwn {V : Type} (o : JSObj V) (k : Str) : Bool := (ownGet (own o) k).isSome

/-- Lookup through the prototype chain. -/
def chainGet {V : Type} : JSObj V → Str → Option V
  | .mk o p, k =>
    match ownGet o k with
    | some v => some v
    | none =>
      match p with
      | some q => chainGet q k
      | none => none

def sentinelK : Str := "__sentinel__".data

def filtersK : Str := "__filters__".data

/-- The object literal `{...scope, __sentinel__: v}` of ApplyTag.render:
the spread copies only the own enumerable properties of `scope`, then
`__sentinel__` is set; the result is a plain object whose prototype (the
plain Object prototype) holds none of the engine's bindings. -/
def spreadSentinel {V : Type} (scope : JSObj V) (v : V) : JSObj V :=
  .mk (setK (own scope) sentinelK v) none

/-- The render-time scope of renderString:
`Object.assign(Object.create(this.global_scope), context)` — a fresh
object whose own properties are the context's own properties and whose
prototype is the engine's global scope. -/
def mkRenderScope {V : Type} (context : List (Str × V)) (gs : JSObj V) :
    JSObj V :=
  .mk context (some gs)

/-- The engine's global scope built by the constructor: the registered
functions, with the reserved `__filters__` key assigned the filters
mapping. -/
def globalScope {V : Type} (fns : List (Str × V)) (fv : V) : JSObj V :=
  .mk (setK fns filtersK fv) none

/-- ApplyTag.render (src/tags/apply.js lines 17-22): call the parsed piped
expression on the spread of the scope extended with `__sentinel__` bound
to the children's rendered output. -/
def applyTagRender {V : Type} (call : JSObj V → V) (children : JSObj V → V)
    (scope : JSObj V) : V :=
  call (spreadSentinel scope (children scope))

/-- renderString modelled end to end: parse the contents and apply the
root with the render-time scope and the absent selector. -/
def renderStringM {V : Type} (R : RenderImpl (JSObj V)) (regi : Registry)
    (sing : Nat → Bool) (contents : String) (context : List (Str × V))
    (gs : JSObj V) : Except Err Str :=
  match parse regi sing contents with
  | .error e => .error e
  | .ok t => .ok ((applyNode R t (mkRenderScope context gs) none).val)

/-- Equality of render results up to suspension: equal resolved strings,
or deferred functions agreeing on every selector. -/
def RREq : RenderResult → RenderResult → Prop
  | .resolved s, .resolved s2 => s = s2
  | .deferred f, .deferred f2 => ∀ c, f c = f2 c
  | _, _ => False

/-- Two render-implementation families that perform the same work up to
the delays of their suspensions: on children renderers whose payloads
agree, their results agree up to suspension. -/
def ImplEq {σ : Type} (R R2 : RenderImpl σ) : Prop :=
  ∀ d scope ch ch2, (∀ s c, (ch s c).val = (ch2 s c).val) →
    RREq (R d scope ch).val (R2 d scope ch2).val

/- Fixtures for the render-engine claims. -/

def payloadOf : NK → Str
  | .text s => s
  | .expr s => s
  | _ => []

/-- A render implementation: Root concatenates its children, every leaf
resolves to its payload, and the Text node "a" resolves only after
suspended work of length 5 (so with children "a", "b" the first child
completes after the second). -/
def Rd1 : RenderImpl Unit := fun d _ ch =>
  match d with
  | .root => ⟨(ch () none).delay, .resolved (ch () none).val⟩
  | .text s => ⟨if s = ['a'] then 5 else 0, .resolved s⟩
  | d2 => ⟨0, .resolved (payloadOf d2)⟩

/-- The same renderer with no suspension anywhere. -/
def Rd2 : RenderImpl Unit := fun d _ ch =>
  match d with
  | .root => ⟨0, .resolved (ch () none).val⟩
  | .text s => ⟨0, .resolved s⟩
  | d2 => ⟨0, .resolved (payloadOf d2)⟩

/-- A renderer whose every node defers, selecting its output by the
received selector. -/
def RdD : RenderImpl Unit := fun _ _ _ =>
  ⟨0, .deferred (fun c => match c with | some 1 => ['y'] | _ => ['n'])⟩

/-- A resolved renderer over the JS-object scope. -/
def RdV : RenderImpl (JSObj Nat) := fun d _ _ => ⟨0, .resolved (payloadOf d)⟩

def tAB : Tree :=
  Tree.node .root [Tree.node (.text ['a']) [], Tree.node (.text ['b']) []]

def gs0 : JSObj Nat := globalScope [] 0

/-
  Spec-side definitions, written from the specification's words, used to
  state hypotheses and counterexamples against the code-derived
  definitions above.
-/

/-- Modelled from the spec (§4.2 transition table): the scope automaton
alone, where a comment absorbs every token other than the comment-end
delimiter; literal items never change the stack.  A template's delimiters
are balanced when the automaton accepts and the stack is back to depth
1. -/
def specAutoStep (stk : List Ctx) (item : Str) : Option (List Ctx) :=
  match stk.headD .content with
  | .comment => if item = cCEND then some stk.tail else some stk
  | .content =>
    if item = cCSTART then some (.comment :: stk)
    else if item = cESTART then some (.expression :: stk)
    else if item = cTSTART then some (.tag :: stk)
    else if item = cEEND || item = cTEND || item = cCEND then none
    else some stk
  | .expression =>
    if item = cEEND then some stk.tail
    else if notTok item then some stk
    else none
  | .tag =>
    if item = cTEND then some stk.tail
    else if notTok item then some stk
    else none

def specAutoRun : List Str → List Ctx → Option (List Ctx)
  | [], stk => some stk
  | item :: rest, stk =>
    match specAutoStep stk item with
    | none => none
    | some stk2 => specAutoRun rest stk2

/-- Modelled from the spec (§8): balanced delimiters — the scope automaton
accepts the item sequence and returns to depth 1. -/
def balancedDelims (items : List Str) : Bool :=
  match specAutoRun items [.content] with
  | some stk => decide (stk.length = 1)
  | none => false

/-- Modelled from the spec (§6): the first whitespace-delimited token of a
tag interior. -/
def firstTok (s : Str) : Str :=
  (s.dropWhile isWS).takeWhile (fun c => !(isWS c))

/-- Does the text contain the tag-open delimiter as a substring, i.e. an
adjacent open-brace / percent pair? -/
def hasTS : Str → Bool
  | [] => false
  | [_] => false
  | a :: b :: rest => (a == '\x7b' && b == '%') || hasTS (b :: rest)

/-
  Concrete fixtures for witnesses and counterexamples: a registry with a
  non-singular block family "b" / "mid" / "endb" (family 0), a singular
  tag "s" (family 1), and a second block family "c" / "endc" (family 2).
-/

def R0 : Registry := fun n =>
  if n = "b".data then some (0, Role.start)
  else if n = "endb".data then some (0, Role.close)
  else if n = "mid".data then some (0, Role.inside)
  else if n = "s".data then some (1, Role.start)
  else if n = "c".data then some (2, Role.start)
  else if n = "endc".data then some (2, Role.close)
  else none

def sing0 : Nat → Bool := fun fam => fam = 1

def z0 : Zipper := ⟨.root, [], []⟩

/-- A skeleton of the template a-expression-block: text "a", expression
"x", an empty text run, a "b" block holding "hi", and a trailing empty
text run. -/
def ast0 : Tpl :=
  .text "a".data (.expr "x".data (.text []
    (.block "b".data [] (.text "hi".data .nil) "endb".data
      (.text [] .nil))))

/-
  Helper lemmas.
-/

theorem dropWhile_dropWhile (p : Char → Bool) (l : Str) :
    (l.dropWhile p).dropWhile p = l.dropWhile p := by
  induction l with
  | nil => rfl
  | cons c l ih =>
    by_cases h : p c
    · simp [List.dropWhile_cons, h, ih]
    · simp [List.dropWhile_cons, h]

theorem trimL_dropWhile (l : Str) : trimL (l.dropWhile isWS) = trimL l := by
  unfold trimL
  rw [dropWhile_dropWhile]

theorem trimL_eq_nil_of_all (l : Str) (h : ∀ c ∈ l, isWS c = true) :
    trimL l = [] := by
  unfold trimL
  have h2 : l.dropWhile isWS = [] := List.dropWhile_eq_nil_iff.mpr h
  rw [h2]
  rfl

theorem dropWhile_all_append (p : Char → Bool) (l l2 : Str)
    (h : ∀ c ∈ l, p c = true) : (l ++ l2).dropWhile p = l2.dropWhile p := by
  rw [List.dropWhile_append]
  have h2 : l.dropWhile p = [] := List.dropWhile_eq_nil_iff.mpr h
  simp [h2]

theorem dropWhile_cons_of_neg (p : Char → Bool) (c : Char) (l : Str)
    (h : p c = false) : (c :: l).dropWhile p = c :: l := by
  simp [List.dropWhile_cons, h]

/-- The regex analysis shared by the claims on the TAG regex: on an input
of the shape whitespace ++ name ++ remainder, with the name nonempty and
whitespace-free and the remainder starting with whitespace, the captures
are the name and a suffix of the remainder that trims to the trimmed
remainder. -/
theorem tagMatch_shape (pre w r : Str)
    (hpre : ∀ c ∈ pre, isWS c = true)
    (hw : w ≠ []) (hwns : ∀ c ∈ w, isWS c = false)
    (hr : r ≠ []) (hrh : isWS (r.headD ' ') = true) :
    ∃ cap, tagMatch (pre ++ w ++ r) = some (w, cap) ∧ trimL cap = trimL r := by
  obtain ⟨c, w', rfl⟩ : ∃ c w', w = c :: w' := by
    cases w with
    | nil => exact absurd rfl hw
    | cons c w' => exact ⟨c, w', rfl⟩
  obtain ⟨x, r', rfl⟩ : ∃ x r', r = x :: r' := by
    cases r with
    | nil => exact absurd rfl hr
    | cons x r' => exact ⟨x, r', rfl⟩
  have hc : isWS c = false := hwns c (by simp)
  have hx : isWS x = true := by simpa using hrh
  have hdrop : ((pre ++ c :: w') ++ x :: r').dropWhile isWS =
      (c :: w') ++ x :: r' := by
    rw [List.append_assoc, dropWhile_all_append _ _ _ hpre]
    exact dropWhile_cons_of_neg _ _ _ hc
  have htake : ((c :: w') ++ x :: r').takeWhile (fun c => !(isWS c)) = c :: w' := by
    rw [List.takeWhile_append]
    have hself : (c :: w').takeWhile (fun c => !(isWS c)) = c :: w' :=
      List.takeWhile_eq_self_iff.mpr (by
        intro y hy
        simp [hwns y hy])
    simp only [hself, if_pos rfl]
    have : (x :: r').takeWhile (fun c => !(isWS c)) = [] := by
      simp [List.takeWhile_cons, hx]
    simp [this]
  unfold tagMatch
  simp only [hdrop, htake]
  have hlen : ((c :: w') ++ x :: r').drop (c :: w').length = x :: r' :=
    List.drop_left _ _
  rw [hlen]
  simp only [reduceCtorEq, if_neg (by simp : ¬(c :: w' = [])),
    if_neg (by simp : ¬(x :: r' = []))]
  by_cases hall : (x :: r').dropWhile isWS = []
  · refine ⟨(x :: r').drop ((x :: r').length - 1), ?_, ?_⟩
    · simp [hall]
    · have hws : ∀ y ∈ x :: r', isWS y = true :=
        List.dropWhile_eq_nil_iff.mp hall
      rw [trimL_eq_nil_of_all _ (fun y hy =>
            hws y (List.drop_subset _ _ hy)),
          trimL_eq_nil_of_all _ hws]
  · refine ⟨(x :: r').dropWhile isWS, ?_, trimL_dropWhile _⟩
    simp [hall]

/-
  C2 — comment absorption.
-/

/-- C2 (counterexample): the claim says that while the top context is
`comment` every token other than the comment-end delimiter changes neither
the context stack nor the tree, and that the comment closes at the first
literal close marker.  In the code the comment-open branch runs before the
comment-absorption check, so a comment-open token inside a comment pushes
a second `comment` context; consequently a template whose comment contains
a comment-open marker and one close marker is rejected instead of parsing
as one closed comment followed by content. -/
theorem comment_open_nests_cx :
    step R0 sing0 ⟨[Ctx.comment, Ctx.content], z0⟩ cCSTART =
      .ok ⟨[Ctx.comment, Ctx.comment, Ctx.content], z0⟩ ∧
    ([Ctx.comment, Ctx.comment, Ctx.content] ≠ [Ctx.comment, Ctx.content]) ∧
    parse R0 sing0 "\x7b# \x7b# #\x7d" = .error .unterminated :=
  ⟨rfl, by decide, rfl⟩

/-- C2 (amended): while the scope automaton's top context is `comment`,
every token other than the comment-open and comment-end delimiters is
absorbed, changing neither the context stack nor the tree; a comment-open
token pushes a nested comment context and a comment-end token pops one, so
comments nest and a comment closes at its matching close marker rather
than at the first one. -/
theorem comment_ctx_step (R : Registry) (sing : Nat → Bool) (st : PState)
    (item : Str) (h : topCtx st = .comment) :
    step R sing st item =
      if item = cCSTART then .ok (push st .comment)
      else if item = cCEND then .ok (popCtx st)
      else .ok st := by
  unfold step
  rw [h]
  simp

/-- An expression-open token inside a comment is absorbed: the state is
unchanged (instantiating the amended C2 statement). -/
theorem comment_ctx_step_witness :
    step R0 sing0 ⟨[Ctx.comment, Ctx.content], z0⟩ cESTART =
      .ok ⟨[Ctx.comment, Ctx.content], z0⟩ := by
  have h := comment_ctx_step R0 sing0 ⟨[Ctx.comment, Ctx.content], z0⟩ cESTART rfl
  rw [if_neg (by decide), if_neg (by decide)] at h
  exact h

/-
  C3 — tag name and signature extraction.
-/

/-- C3 (counterexample): the claim says the tag name is always the first
whitespace-delimited token of the interior and the rest is the signature,
with MalformedTagError when the interior lacks the name-plus-rest shape.
On the interior "ab" (a single token with no following character) the TAG
regex instead backtracks and splits the token: the name capture is "a" and
the signature capture "b", although the first whitespace-delimited token
is "ab"; at template level, an interior holding only the registered
singular tag name "s" followed by "x" parses as tag "s" with signature
"x" rather than failing. -/
theorem tag_name_split_cx :
    tagMatch "ab".data = some ("a".data, "b".data) ∧
    firstTok "ab".data = "ab".data ∧
    "a".data ≠ "ab".data ∧
    parse R0 sing0 "\x7b%sx%\x7d" =
      .ok (Tree.node .root
        [Tree.node (.text []) [],
         Tree.node (.tagNode 1 .start ['s'] ['x'] true) [],
         Tree.node (.text []) []]) :=
  ⟨rfl, rfl, by decide, rfl⟩

/-- C3 (amended): whenever at least one character follows the first
whitespace-delimited token of a tag interior, the name used for registry
lookup is exactly that token, and the signature, once trimmed, is exactly
the trimmed remainder after the token.  (An interior that is optional
whitespace followed by a lone token is instead split before its last
character when the token has two or more characters, and raises
MalformedTagError only when the interior is all whitespace or a single
character.) -/
theorem tag_name_first_token (pre w r : Str)
    (hpre : ∀ c ∈ pre, isWS c = true)
    (hw : w ≠ []) (hwns : ∀ c ∈ w, isWS c = false)
    (hr : r ≠ []) (hrh : isWS (r.headD ' ') = true) :
    firstTok (pre ++ w ++ r) = w ∧
    ∃ cap, tagMatch (pre ++ w ++ r) = some (w, cap) ∧ trimL cap = trimL r := by
  constructor
  · obtain ⟨c, w', rfl⟩ : ∃ c w', w = c :: w' := by
      cases w with
      | nil => exact absurd rfl hw
      | cons c w' => exact ⟨c, w', rfl⟩
    obtain ⟨x, r', rfl⟩ : ∃ x r', r = x :: r' := by
      cases r with
      | nil => exact absurd rfl hr
      | cons x r' => exact ⟨x, r', rfl⟩
    have hc : isWS c = false := hwns c (by simp)
    have hx : isWS x = true := by simpa using hrh
    have hdrop : ((pre ++ c :: w') ++ x :: r').dropWhile isWS =
        (c :: w') ++ x :: r' := by
      rw [List.append_assoc, dropWhile_all_append _ _ _ hpre]
      exact dropWhile_cons_of_neg _ _ _ hc
    unfold firstTok
    rw [hdrop, List.takeWhile_append]
    have hself : (c :: w').takeWhile (fun c => !(isWS c)) = c :: w' :=
      List.takeWhile_eq_self_iff.mpr (by
        intro y hy
        simp [hwns y hy])
    simp only [hself, if_pos rfl]
    simp [List.takeWhile_cons, hx]
  · exact tagMatch_shape pre w r hpre hw hwns hr hrh

/-- Instantiating the amended C3 statement on the interior " if  x  ":
the tag name is "if" and the signature trims to "x". -/
theorem tag_name_first_token_witness :
    firstTok (" ".data ++ "if".data ++ "  x  ".data) = "if".data ∧
    ∃ cap, tagMatch (" ".data ++ "if".data ++ "  x  ".data) =
      some ("if".data, cap) ∧ trimL cap = trimL "  x  ".data :=
  tag_name_first_token " ".data "if".data "  x  ".data
    (by decide) (by decide) (by decide) (by decide) (by decide)

/-
  C4 — insertion-cursor rules of the tree builder.
-/

/-- C4: the tree-builder dispatch obeys the cursor rules: a non-singular
Start node is appended under the cursor and becomes the cursor; a singular
Start node is appended and leaves the cursor unchanged; an End whose
family matches a Start cursor pops the cursor to that Start node's parent,
and when the cursor is an Inside node, to the Inside node's grandparent;
an Inside node whose family matches the cursor is appended under the
cursor and becomes the cursor. -/
theorem cursor_rules (fam : Nat) (sg : Bool) (name sig : Str) :
    (∀ cur ch anc, buildStep fam .start false name sig ⟨cur, ch, anc⟩ =
        .ok ⟨.tagNode fam .start name sig false, [], (cur, ch) :: anc⟩) ∧
    (∀ cur ch anc, buildStep fam .start true name sig ⟨cur, ch, anc⟩ =
        .ok ⟨cur, ch ++ [Tree.node (.tagNode fam .start name sig true) []], anc⟩) ∧
    (∀ n2 s2 g2 ch pd pch anc,
        buildStep fam .close sg name sig
            ⟨.tagNode fam .start n2 s2 g2, ch, (pd, pch) :: anc⟩ =
        .ok ⟨pd, pch ++ [Tree.node (.tagNode fam .start n2 s2 g2) ch], anc⟩) ∧
    (∀ n2 s2 g2 ch pd pch qd qch anc,
        buildStep fam .close sg name sig
            ⟨.tagNode fam .inside n2 s2 g2, ch, (pd, pch) :: (qd, qch) :: anc⟩ =
        .ok ⟨qd, qch ++
          [Tree.node pd (pch ++ [Tree.node (.tagNode fam .inside n2 s2 g2) ch])],
          anc⟩) ∧
    (∀ r2 n2 s2 g2 ch pd pch anc,
        buildStep fam .inside sg name sig
            ⟨.tagNode fam r2 n2 s2 g2, ch, (pd, pch) :: anc⟩ =
        .ok ⟨.tagNode fam .inside name sig sg, [],
          (.tagNode fam r2 n2 s2 g2, ch) :: (pd, pch) :: anc⟩) := by
  refine ⟨?_, ?_, ?_, ?_, ?_⟩ <;> intros <;>
    simp [buildStep, appendLeaf, descend]

/-
  C5 — final checks and mismatched closers.
-/

/-- C5: parse fails with the unterminated-construct error whenever the
loop completes with the context stack above depth 1 or with the cursor not
at the root; an End or Inside tag whose family differs from the cursor's
family makes the tree builder fail with the mismatched-close error; and
parse returns a tree only when the stack is back to depth 1 and the cursor
is the root. -/
theorem parse_end_checks (R : Registry) (sing : Nat → Bool) :
    (∀ items st, runItems R sing items initState = .ok st →
      st.stack.length ≠ 1 → parseItems R sing items = .error .unterminated) ∧
    (∀ items st, runItems R sing items initState = .ok st →
      ¬ (st.z.anc = [] ∧ st.z.cur = NK.root) →
      parseItems R sing items = .error .unterminated) ∧
    (∀ fam role sg name sig z, (role = Role.close ∨ role = Role.inside) →
      famOf z.cur ≠ some fam →
      buildStep fam role sg name sig z = .error .mismatchedClose) ∧
    (∀ items t, parseItems R sing items = .ok t →
      ∃ st, runItems R sing items initState = .ok st ∧
        st.stack.length = 1 ∧ st.z.anc = [] ∧ st.z.cur = NK.root) := by
  refine ⟨?_, ?_, ?_, ?_⟩
  · intro items st hrun hlen
    unfold parseItems
    rw [hrun]
    simp [hlen]
  · intro items st hrun hroot
    unfold parseItems
    rw [hrun]
    by_cases hlen : st.stack.length ≠ 1
    · simp [hlen]
    · rcases st with ⟨stk, cur, ch, anc⟩
      cases cur <;> cases anc <;> simp_all
  · intro fam role sg name sig z hrole hfam
    rcases z with ⟨cur, ch, anc⟩
    rcases hrole with rfl | rfl <;> cases cur <;> cases anc <;>
      simp_all [buildStep, famOf]
  · intro items t h
    unfold parseItems at h
    cases hrun : runItems R sing items initState with
    | error e =>
      rw [hrun] at h
      exact absurd h (by simp)
    | ok st =>
      rw [hrun] at h
      refine ⟨st, rfl, ?_⟩
      by_cases hlen : st.stack.length ≠ 1
      · simp [hlen] at h
      · rcases st with ⟨stk, cur, ch, anc⟩
        cases cur <;> cases anc <;> simp_all

/-- Instantiating C5: a non-singular Start tag with no matching End tag is
rejected as unterminated, and closing against the root cursor is a
mismatched close. -/
theorem parse_end_checks_witness :
    parseItems R0 sing0 (tokenize "\x7b%b x%\x7d".data) = .error .unterminated ∧
    buildStep 0 Role.close false "endb".data [] z0 = .error .mismatchedClose := by
  refine ⟨(parse_end_checks R0 sing0).2.1 (tokenize "\x7b%b x%\x7d".data)
      ⟨[Ctx.content], ⟨NK.tagNode 0 .start ['b'] ['x'] false,
        [Tree.node (.text []) []], [(NK.root, [Tree.node (.text []) []])]⟩⟩
      rfl ?_,
    (parse_end_checks R0 sing0).2.2.1 0 Role.close false "endb".data []
      z0 (Or.inl rfl) ?_⟩
  · rintro ⟨h1, -⟩
    exact List.cons_ne_nil _ _ h1
  · decide

/-
  C8 — tag registration routing.
-/

theorem addTagInsides_cons (fam : Nat) (n : Str) (rest : List Str)
    (t : Registry) :
    addTagInsides fam (n :: rest) t =
      addTagInsides fam rest (upd t n (fam, Role.inside)) := rfl

theorem addTagStarts_cons (fam : Nat) (sng : Bool) (n : Str)
    (rest : List Str) (t : Registry) :
    addTagStarts fam sng (n :: rest) t =
      addTagStarts fam sng rest
        (if sng then upd t n (fam, Role.start)
         else upd (upd t n (fam, Role.start)) (endK ++ n) (fam, Role.close)) :=
  rfl

theorem addTagInsides_lookup (fam : Nat) (l : List Str) (t : Registry)
    (k : Str) :
    addTagInsides fam l t k =
      if k ∈ l then some (fam, Role.inside) else t k := by
  induction l generalizing t with
  | nil => simp [addTagInsides]
  | cons n rest ih =>
    rw [addTagInsides_cons, ih]
    by_cases hk : k ∈ rest
    · simp [hk]
    · by_cases hkn : k = n
      · subst hkn
        simp [hk, upd]
      · simp [hk, hkn, upd]

theorem addTagStarts_untouched (fam : Nat) (sng : Bool) (l : List Str)
    (t : Registry) (k : Str) (hk : k ∉ l)
    (he : ∀ m ∈ l, sng = false → endK ++ m ≠ k) :
    addTagStarts fam sng l t k = t k := by
  induction l generalizing t with
  | nil => rfl
  | cons n rest ih =>
    rw [addTagStarts_cons,
      ih _ (fun h => hk (List.mem_cons_of_mem _ h))
        (fun m hm => he m (List.mem_cons_of_mem _ hm))]
    have hkn : ¬(k = n) := fun h => hk (h ▸ List.mem_cons_self _ _)
    cases hs : sng with
    | true => simp [upd, hkn]
    | false =>
      have hek : ¬(k = endK ++ n) :=
        fun h => he n (List.mem_cons_self _ _) hs h.symm
      simp [upd, hkn, hek]

theorem addTagStarts_start (fam : Nat) (sng : Bool) (l : List Str)
    (t : Registry) (k : Str) (hk : k ∈ l)
    (he : ∀ m ∈ l, sng = false → endK ++ m ≠ k) :
    addTagStarts fam sng l t k = some (fam, Role.start) := by
  induction l generalizing t with
  | nil => exact absurd hk (List.not_mem_nil k)
  | cons n rest ih =>
    rw [addTagStarts_cons]
    by_cases hk2 : k ∈ rest
    · exact ih _ hk2 (fun m hm => he m (List.mem_cons_of_mem _ hm))
    · have hkn : k = n := by
        rcases List.mem_cons.mp hk with h | h
        · exact h
        · exact absurd h hk2
      subst hkn
      rw [addTagStarts_untouched fam sng rest _ k hk2
        (fun m hm => he m (List.mem_cons_of_mem _ hm))]
      cases hs : sng with
      | true => simp [upd]
      | false =>
        have hek : ¬(k = endK ++ k) :=
          fun h => he k (List.mem_cons_self _ _) hs h.symm
        simp [upd, hek]

theorem addTagStarts_close (fam : Nat) (l : List Str) (t : Registry)
    (k : Str) (hk : k ∉ l) (hm : ∃ m ∈ l, endK ++ m = k) :
    addTagStarts fam false l t k = some (fam, Role.close) := by
  induction l generalizing t with
  | nil =>
    obtain ⟨m, hm1, -⟩ := hm
    exact absurd hm1 (List.not_mem_nil m)
  | cons n rest ih =>
    rw [addTagStarts_cons]
    by_cases hrest : ∃ m ∈ rest, endK ++ m = k
    · exact ih _ (fun h => hk (List.mem_cons_of_mem _ h)) hrest
    · have hn : endK ++ n = k := by
        obtain ⟨m, hm1, hm2⟩ := hm
        rcases List.mem_cons.mp hm1 with h | h
        · exact h ▸ hm2
        · exact absurd ⟨m, h, hm2⟩ hrest
      rw [addTagStarts_untouched fam false rest _ k
        (fun h => hk (List.mem_cons_of_mem _ h))
        (fun m hmm _ hcon => hrest ⟨m, hmm, hcon⟩)]
      simp [upd, hn.symm]

/-- C8: after addTag(descriptor) the registry routes every opening name of
the descriptor to (descriptor, Start); when the descriptor is not singular
it additionally routes "end" prefixed to each opening name to
(descriptor, End); it routes every inside name to (descriptor, Inside)
(each statement under the proviso that the derived key is not also written
by a later routing rule); and during tree building a tag name with no
registry entry always raises the unknown-tag error in place of a silent
no-op. -/
theorem addTag_routing (d : TagDescriptor) (t : Registry) :
    (∀ n, n ∈ d.tagNames → n ∉ d.insideTagNames →
      (∀ m ∈ d.tagNames, d.singular = false → endK ++ m ≠ n) →
      addTag d t n = some (d.fam, Role.start)) ∧
    (∀ n, n ∈ d.tagNames → d.singular = false →
      (endK ++ n) ∉ d.tagNames → (endK ++ n) ∉ d.insideTagNames →
      addTag d t (endK ++ n) = some (d.fam, Role.close)) ∧
    (∀ n, n ∈ d.insideTagNames → addTag d t n = some (d.fam, Role.inside)) ∧
    (∀ (R : Registry) (sing : Nat → Bool) item st name sigc,
      tagMatch item = some (name, sigc) → R name = none →
      tagStep R sing item st = .error (.unknownTag name)) := by
  refine ⟨?_, ?_, ?_, ?_⟩
  · intro n hn hni he
    unfold addTag
    rw [addTagInsides_lookup]
    simp only [hni, if_neg, if_false]
    exact addTagStarts_start d.fam d.singular d.tagNames t n hn he
  · intro n hn hs hnt hni
    unfold addTag
    rw [addTagInsides_lookup]
    simp only [hni, if_neg, if_false]
    rw [hs] at *
    exact addTagStarts_close d.fam d.tagNames t (endK ++ n) hnt ⟨n, hn, rfl⟩
  · intro n hn
    unfold addTag
    rw [addTagInsides_lookup]
    simp [hn]
  · intro R sing item st name sigc htm hr
    simp [tagStep, htm, hr]

/-- Instantiating C8 on a concrete descriptor with opening name "b",
inside name "mid", not singular: "b" routes to Start, "endb" to End, "mid"
to Inside, and the unregistered name "bogus" raises the unknown-tag
error. -/
theorem addTag_routing_witness :
    addTag ⟨["b".data], ["mid".data], false, 0⟩ (fun _ => none) "b".data =
      some (0, Role.start) ∧
    addTag ⟨["b".data], ["mid".data], false, 0⟩ (fun _ => none) "endb".data =
      some (0, Role.close) ∧
    addTag ⟨["b".data], ["mid".data], false, 0⟩ (fun _ => none) "mid".data =
      some (0, Role.inside) ∧
    tagStep (fun _ => none) sing0 "bogus x".data
      ⟨[Ctx.tag, Ctx.content], z0⟩ = .error (.unknownTag "bogus".data) := by
  refine ⟨?_, ?_, ?_, ?_⟩
  · exact (addTag_routing _ _).1 "b".data (by decide) (by decide) (by decide)
  · exact (addTag_routing ⟨["b".data], ["mid".data], false, 0⟩
      (fun _ => none)).2.1 "b".data (by decide) rfl (by decide) (by decide)
  · exact (addTag_routing _ _).2.2.1 "mid".data (by decide)
  · exact (addTag_routing ⟨["b".data], ["mid".data], false, 0⟩
      (fun _ => none)).2.2.2 (fun _ => none) sing0 "bogus x".data
      ⟨[Ctx.tag, Ctx.content], z0⟩ "bogus".data "x".data rfl rfl

/-
  C9 — the scope object passed to the apply tag's piped expression.
-/

theorem ownGet_setK {V : Type} (l : List (Str × V)) (k q : Str) (v : V) :
    ownGet (setK l k v) q = if q = k then some v else ownGet l q := by
  induction l with
  | nil =>
    by_cases h : q = k <;> simp [setK, ownGet, h]
  | cons p rest ih =>
    rcases p with ⟨k2, v2⟩
    by_cases h : k = k2
    · subst h
      by_cases hq : q = k <;> simp [setK, ownGet, hq]
    · by_cases hq2 : q = k2
      · subst hq2
        have hqk : ¬(q = k) := fun hh => h hh.symm
        simp [setK, ownGet, h, hqk]
      · simp [setK, ownGet, h, hq2, ih]

/-- C9: the object that ApplyTag.render passes to the piped expression is
the spread of the render-time scope with `__sentinel__` bound to the
children's output: its own properties are exactly the scope's own
properties plus `__sentinel__`; its prototype holds nothing; any key that
is not an own property of the render-time scope (and is not the sentinel)
is not an own property of the passed object — in particular the reserved
`__filters__` mapping, which renderString's scope reaches only through its
prototype (the engine's global scope) whenever the caller context lacks an
own `__filters__` key. -/
theorem apply_scope_own (V : Type) :
    (∀ (call : JSObj V → V) (children : JSObj V → V) (scope : JSObj V),
      applyTagRender call children scope =
        call (spreadSentinel scope (children scope))) ∧
    (∀ (scope : JSObj V) (v : V) (k : Str),
      isOwn (spreadSentinel scope v) k = true ↔
        (isOwn scope k = true ∨ k = sentinelK)) ∧
    (∀ (scope : JSObj V) (v : V), proto (spreadSentinel scope v) = none) ∧
    (∀ (context : List (Str × V)) (gs : JSObj V) (k : Str) (v : V),
      k ≠ sentinelK → isOwn (mkRenderScope context gs) k = false →
      isOwn (spreadSentinel (mkRenderScope context gs) v) k = false) ∧
    (∀ (fns : List (Str × V)) (fv : V) (context : List (Str × V)) (v : V),
      ownGet context filtersK = none →
      chainGet (mkRenderScope context (globalScope fns fv)) filtersK =
        some fv ∧
      isOwn (spreadSentinel (mkRenderScope context (globalScope fns fv)) v)
        filtersK = false) := by
  have hspread : ∀ (scope : JSObj V) (v : V) (k : Str),
      isOwn (spreadSentinel scope v) k = true ↔
        (isOwn scope k = true ∨ k = sentinelK) := by
    intro scope v k
    by_cases h : k = sentinelK <;>
      simp [isOwn, spreadSentinel, own, ownGet_setK, h]
  refine ⟨fun _ _ _ => rfl, hspread, fun _ _ => rfl, ?_, ?_⟩
  · intro context gs k v hk hown
    have := hspread (mkRenderScope context gs) v k
    rcases hb : isOwn (spreadSentinel (mkRenderScope context gs) v) k with _ | _
    · rfl
    · rcases this.mp hb with h1 | h1
      · rw [hown] at h1
        exact absurd h1 (by simp)
      · exact absurd h1 hk
  · intro fns fv context v hctx
    constructor
    · simp [mkRenderScope, chainGet, hctx, globalScope, ownGet_setK]
    · simp [isOwn, spreadSentinel, own, mkRenderScope, ownGet_setK,
        show ¬(filtersK = sentinelK) from by decide, hctx]

/-- Instantiating C9: with caller context x = 1 and a global scope holding
the function f and the filters mapping, the spread object passed to the
expression owns x and the sentinel but not the prototype-reachable
`__filters__`. -/
theorem apply_scope_own_witness :
    (isOwn (spreadSentinel
        (mkRenderScope [("x".data, (1 : Nat))]
          (globalScope [("f".data, 2)] 3)) 9) "x".data = true ↔
      (isOwn (mkRenderScope [("x".data, (1 : Nat))]
          (globalScope [("f".data, 2)] 3)) "x".data = true ∨
        "x".data = sentinelK)) ∧
    chainGet (mkRenderScope [("x".data, (1 : Nat))]
        (globalScope [("f".data, 2)] 3)) filtersK = some 3 ∧
    isOwn (spreadSentinel
        (mkRenderScope [("x".data, (1 : Nat))]
          (globalScope [("f".data, 2)] 3)) 9) filtersK = false :=
  ⟨(apply_scope_own Nat).2.1 _ 9 "x".data,
   ((apply_scope_own Nat).2.2.2.2 [("f".data, 2)] 3 [("x".data, 1)] 9 rfl).1,
   ((apply_scope_own Nat).2.2.2.2 [("f".data, 2)] 3 [("x".data, 1)] 9 rfl).2⟩

/-
  C6 and C7 — the render engine.
-/

theorem applyNode_node {σ : Type} (R : RenderImpl σ) (d : NK)
    (cs : List Tree) (scope : σ) (cond : Option Nat) :
    applyNode R (Tree.node d cs) scope cond =
      match (R d scope (childrenRenderer R cs)).val with
      | .resolved s => ⟨(R d scope (childrenRenderer R cs)).delay, s⟩
      | .deferred f => ⟨(R d scope (childrenRenderer R cs)).delay, f cond⟩ := by
  unfold applyNode
  rfl

theorem childrenRenderer_val {σ : Type} (R : RenderImpl σ) (cs : List Tree)
    (scope : σ) (cond : Option Nat) :
    (childrenRenderer R cs scope cond).val =
      (cs.map (fun t => (applyNode R t scope cond).val)).flatten := by
  show ((cs.attach.map (fun c => applyNode R c.1 scope cond)).map
      Async.val).flatten = _
  rw [List.map_map]
  have h := List.attach_map_val cs (fun t => (applyNode R t scope cond).val)
  have h2 : cs.attach.map (Async.val ∘ fun c => applyNode R c.1 scope cond) =
      cs.attach.map (fun c => (applyNode R c.1 scope cond).val) := rfl
  rw [h2, h]

theorem applyNode_val_ext {σ : Type} {R R2 : RenderImpl σ} (h : ImplEq R R2) :
    ∀ (t : Tree) (scope : σ) (cond : Option Nat),
      (applyNode R t scope cond).val = (applyNode R2 t scope cond).val := by
  suffices H : ∀ (n : Nat) (t : Tree), sizeOf t ≤ n → ∀ scope cond,
      (applyNode R t scope cond).val = (applyNode R2 t scope cond).val by
    exact fun t => H (sizeOf t) t le_rfl
  intro n
  induction n with
  | zero =>
    intro t ht
    rcases t with ⟨d, cs⟩
    simp only [Tree.node.sizeOf_spec] at ht
    omega
  | succ n ih =>
    intro t ht scope cond
    rcases t with ⟨d, cs⟩
    rw [applyNode_node, applyNode_node]
    have hch : ∀ s c, (childrenRenderer R cs s c).val =
        (childrenRenderer R2 cs s c).val := by
      intro s c
      rw [childrenRenderer_val, childrenRenderer_val]
      congr 1
      apply List.map_congr_left
      intro t2 ht2
      apply ih
      have h1 : sizeOf t2 < sizeOf (Tree.node d cs) := by
        have h2 := List.sizeOf_lt_of_mem ht2
        simp only [Tree.node.sizeOf_spec]
        omega
      simp only [Tree.node.sizeOf_spec] at ht h1
      omega
    have hRR := h d scope _ _ hch
    rcases hv1 : (R d scope (childrenRenderer R cs)).val with s1 | f1 <;>
      rcases hv2 : (R2 d scope (childrenRenderer R2 cs)).val with s2 | f2 <;>
      rw [hv1, hv2] at hRR <;> simp [RREq] at hRR <;>
      simp [hv1, hv2, hRR]

/-- C6: the string produced by the childrenRenderer closure is the join,
in document (child-list) order, of the render engine applied to each
child; and the output string is independent of the delays of the
children's suspended work — two implementations performing the same work
up to suspension produce the same strings everywhere, so a child that
resolves later never moves its text later in the output. -/
theorem children_doc_order :
    (∀ (σ : Type) (R : RenderImpl σ) (cs : List Tree) (scope : σ)
        (cond : Option Nat),
      (childrenRenderer R cs scope cond).val =
        (cs.map (fun t => (applyNode R t scope cond).val)).flatten) ∧
    (∀ (σ : Type) (R R2 : RenderImpl σ), ImplEq R R2 →
      ∀ (t : Tree) (scope : σ) (cond : Option Nat),
        (applyNode R t scope cond).val = (applyNode R2 t scope cond).val) :=
  ⟨fun _ R cs scope cond => childrenRenderer_val R cs scope cond,
   fun _ _ _ h => applyNode_val_ext h⟩

/-- Instantiating C6 with children "a" then "b", where the renderer Rd1
suspends the first child longer than the second and Rd2 does not suspend
at all: the children's joined output follows document order and the two
renderers' outputs coincide. -/
theorem children_doc_order_witness :
    (childrenRenderer Rd1
        [Tree.node (.text ['a']) [], Tree.node (.text ['b']) []]
        () none).val =
      (([Tree.node (.text ['a']) [], Tree.node (.text ['b']) []].map
        (fun t => (applyNode Rd1 t () none).val)).flatten) ∧
    (applyNode Rd1 tAB () none).val = (applyNode Rd2 tAB () none).val :=
  ⟨children_doc_order.1 Unit Rd1 _ () none,
   children_doc_order.2 Unit Rd1 Rd2
     (by
       intro d scope ch ch2 hch
       cases d <;> simp [Rd1, Rd2, RREq, hch])
     tAB () none⟩

/-- C7: when a node's render returns a resolved string the engine uses
that string unchanged; when it returns a deferred function the engine
invokes it with the selector passed into this apply call (the one supplied
by the node's parent); and renderString applies the root with the absent
selector. -/
theorem render_dispatch :
    (∀ (σ : Type) (R : RenderImpl σ) (d : NK) (cs : List Tree) (scope : σ)
        (cond : Option Nat) (s : Str),
      (R d scope (childrenRenderer R cs)).val = .resolved s →
      applyNode R (Tree.node d cs) scope cond =
        ⟨(R d scope (childrenRenderer R cs)).delay, s⟩) ∧
    (∀ (σ : Type) (R : RenderImpl σ) (d : NK) (cs : List Tree) (scope : σ)
        (cond : Option Nat) (f : Option Nat → Str),
      (R d scope (childrenRenderer R cs)).val = .deferred f →
      applyNode R (Tree.node d cs) scope cond =
        ⟨(R d scope (childrenRenderer R cs)).delay, f cond⟩) ∧
    (∀ (V : Type) (R : RenderImpl (JSObj V)) (regi : Registry)
        (sing : Nat → Bool) (s : String) (context : List (Str × V))
        (gs : JSObj V) (t : Tree),
      parse regi sing s = .ok t →
      renderStringM R regi sing s context gs =
        .ok ((applyNode R t (mkRenderScope context gs) none).val)) := by
  refine ⟨?_, ?_, ?_⟩
  · intro σ R d cs scope cond s hv
    rw [applyNode_node, hv]
  · intro σ R d cs scope cond f hv
    rw [applyNode_node, hv]
  · intro V R regi sing s context gs t hp
    unfold renderStringM
    rw [hp]

/-- Instantiating C7: a resolved leaf keeps its string; a deferred node is
fed the selector of its own apply call; renderString on "hi" renders the
parsed tree with the absent selector. -/
theorem render_dispatch_witness :
    applyNode Rd1 (Tree.node (.text ['a']) []) () none = ⟨5, ['a']⟩ ∧
    applyNode RdD (Tree.node (.text []) []) () (some 1) = ⟨0, ['y']⟩ ∧
    renderStringM RdV R0 sing0 "hi" [] gs0 =
      .ok ((applyNode RdV (Tree.node .root [Tree.node (.text "hi".data) []])
        (mkRenderScope [] gs0) none).val) :=
  ⟨render_dispatch.1 Unit Rd1 (.text ['a']) [] () none ['a'] rfl,
   render_dispatch.2.1 Unit RdD (.text []) [] () (some 1) _ rfl,
   render_dispatch.2.2 Nat RdV R0 sing0 "hi" [] gs0
     (Tree.node .root [Tree.node (.text "hi".data) []]) rfl⟩

/-
  C10 — refinement against the earlier engine on tag-free templates.
-/

theorem hasTS_append_right (xs ys : Str) (h : hasTS ys = true) :
    hasTS (xs ++ ys) = true := by
  induction xs with
  | nil => simpa using h
  | cons a xs ih =>
    cases hx : xs ++ ys with
    | nil =>
      rcases List.append_eq_nil.mp hx with ⟨-, rfl⟩
      simp [hasTS] at h
    | cons b l2 =>
      rw [hx] at ih
      show hasTS (a :: (xs ++ ys)) = true
      rw [hx]
      simp [hasTS, ih]

theorem hasTS_append_left (xs ys : Str) (h : hasTS xs = true) :
    hasTS (xs ++ ys) = true := by
  induction xs with
  | nil => simp [hasTS] at h
  | cons a xs ih =>
    cases xs with
    | nil => simp [hasTS] at h
    | cons b xs2 =>
      simp only [hasTS, Bool.or_eq_true] at h
      rcases h with h | h
      · show hasTS (a :: b :: (xs2 ++ ys)) = true
        simp [hasTS, h]
      · have := ih h
        show hasTS (a :: b :: (xs2 ++ ys)) = true
        simp only [hasTS, Bool.or_eq_true]
        right
        simpa using this

theorem hasTS_parts (xs ys : Str) (h : hasTS (xs ++ ys) = false) :
    hasTS xs = false ∧ hasTS ys = false := by
  constructor
  · cases hx : hasTS xs with
    | false => rfl
    | true =>
      rw [hasTS_append_left xs ys hx] at h
      exact absurd h (by decide)
  · cases hy : hasTS ys with
    | false => rfl
    | true =>
      rw [hasTS_append_right xs ys hy] at h
      exact absurd h (by decide)

theorem hasTS_tail (x : Char) (l : Str) (h : hasTS (x :: l) = false) :
    hasTS l = false := by
  cases l with
  | nil => rfl
  | cons y l2 =>
    simp only [hasTS, Bool.or_eq_false_iff] at h
    exact h.2

theorem hasTS_of_eq_ts (l : Str) (h : hasTS l = false) : l ≠ cTSTART := by
  intro heq
  rw [heq] at h
  exact absurd h (by decide)

theorem tokScan_no_ts (acc rest : Str) :
    hasTS (acc.reverse ++ rest) = false →
    ∀ item ∈ tokScan acc rest, item ≠ cTSTART := by
  induction acc, rest using tokScan.induct with
  | case1 acc =>
    intro h item hi
    simp only [tokScan, List.mem_singleton] at hi
    subst hi
    exact hasTS_of_eq_ts _ (by simpa using h)
  | case2 acc a =>
    intro h item hi
    simp only [tokScan, List.mem_singleton] at hi
    subst hi
    refine hasTS_of_eq_ts _ ?_
    have h2 : (a :: acc).reverse = acc.reverse ++ [a] := by simp
    rw [h2]
    simpa using h
  | case3 acc a b rest hd ih =>
    intro h item hi
    simp only [tokScan, hd, if_true] at hi
    rcases List.mem_cons.mp hi with rfl | hi2
    · exact hasTS_of_eq_ts _ (hasTS_parts _ _ h).1
    · rcases List.mem_cons.mp hi2 with rfl | hi3
      · intro heq
        have hpair : hasTS (a :: b :: rest) = true := by
          have hab : a = '\x7b' ∧ b = '%' := by
            have := congrArg (fun l => l) heq
            simp only [cTSTART, List.cons.injEq] at heq
            exact ⟨heq.1, heq.2.1⟩
          simp [hasTS, hab.1, hab.2]
        rw [hasTS_append_right _ _ hpair] at h
        exact absurd h.symm (by decide)
      · have h2 : hasTS rest = false := by
          have h3 := (hasTS_parts _ _ h).2
          exact hasTS_tail _ _ (hasTS_tail _ _ h3)
        exact ih (by simpa using h2) item hi3
  | case4 acc a b rest hd ih =>
    intro h item hi
    simp only [tokScan, hd, if_false] at hi
    have h2 : hasTS ((a :: acc).reverse ++ b :: rest) = false := by
      have heq : (a :: acc).reverse ++ b :: rest =
          acc.reverse ++ a :: b :: rest := by
        simp
      rw [heq]
      exact h
    exact ih h2 item hi

theorem tokenize_no_ts (s : Str) (h : hasTS s = false) :
    ∀ item ∈ tokenize s, item ≠ cTSTART :=
  tokScan_no_ts [] s (by simpa using h)

theorem step_eq_feuille (R Rf : Registry) (sing singf : Nat → Bool)
    (st : PState) (item : Str) (hit : item ≠ cTSTART)
    (htag : topCtx st ≠ .tag) :
    step R sing st item = feuilleStep Rf singf st item := by
  unfold step feuilleStep
  by_cases h1 : item = cCSTART
  · rw [if_pos h1, if_pos h1]
  · rw [if_neg h1, if_neg h1]
    by_cases h2 : item = cCEND
    · rw [if_pos h2, if_pos h2]
    · rw [if_neg h2, if_neg h2]
      by_cases h3 : topCtx st = .comment
      · rw [if_pos h3, if_pos h3]
      · rw [if_neg h3, if_neg h3]
        by_cases h4 : item = cESTART
        · rw [if_pos h4, if_pos h4]
        · rw [if_neg h4, if_neg h4, if_neg hit]
          by_cases h5 : item = cEEND
          · rw [if_pos h5, if_pos h5]
          · rw [if_neg h5, if_neg h5, if_neg hit]
            by_cases h6 : item = cTEND
            · rw [if_pos h6, if_pos h6]
            · rw [if_neg h6, if_neg h6]
              cases hc : topCtx st with
              | content => rfl
              | expression => rfl
              | tag => exact absurd hc htag
              | comment => exact absurd hc h3

theorem step_no_tag (R : Registry) (sing : Nat → Bool) (st st2 : PState)
    (item : Str) (hit : item ≠ cTSTART) (hnt : Ctx.tag ∉ st.stack)
    (h : step R sing st item = .ok st2) : Ctx.tag ∉ st2.stack := by
  have htail : Ctx.tag ∉ st.stack.tail :=
    fun hmem => hnt (List.mem_of_mem_tail hmem)
  unfold step at h
  by_cases h1 : item = cCSTART
  · rw [if_pos h1] at h
    cases h
    intro hmem
    rcases List.mem_cons.mp hmem with hc | hc
    · exact absurd hc.symm (by decide)
    · exact hnt hc
  · rw [if_neg h1] at h
    by_cases h2 : item = cCEND
    · rw [if_pos h2] at h
      by_cases h3 : topCtx st = .comment
      · rw [if_pos h3] at h
        cases h
        exact htail
      · rw [if_neg h3] at h
        cases h
    · rw [if_neg h2] at h
      by_cases h3 : topCtx st = .comment
      · rw [if_pos h3] at h
        cases h
        exact hnt
      · rw [if_neg h3] at h
        by_cases h4 : item = cESTART
        · rw [if_pos h4] at h
          by_cases h5 : topCtx st = .content
          · rw [if_pos h5] at h
            cases h
            intro hmem
            rcases List.mem_cons.mp hmem with hc | hc
            · exact absurd hc.symm (by decide)
            · exact hnt hc
          · rw [if_neg h5] at h
            cases h
        · rw [if_neg h4] at h
          rw [if_neg hit] at h
          by_cases h6 : item = cEEND
          · rw [if_pos h6] at h
            by_cases h7 : topCtx st = .expression
            · rw [if_pos h7] at h
              cases h
              exact htail
            · rw [if_neg h7] at h
              cases h
          · rw [if_neg h6] at h
            by_cases h8 : item = cTEND
            · rw [if_pos h8] at h
              by_cases h9 : topCtx st = .tag
              · rw [if_pos h9] at h
                cases h
                exact htail
              · rw [if_neg h9] at h
                cases h
            · rw [if_neg h8] at h
              cases hc : topCtx st with
              | content =>
                rw [hc] at h
                cases h
                exact hnt
              | expression =>
                rw [hc] at h
                cases h
                exact hnt
              | tag =>
                rw [hc] at h
                unfold tagStep at h
                cases htm : tagMatch item with
                | none => rw [htm] at h; cases h
                | some p =>
                  rw [htm] at h
                  cases hr : R p.1 with
                  | none => simp [hr] at h
                  | some q =>
                    simp only [hr] at h
                    cases hb : buildStep q.1 q.2 (sing q.1) p.1
                        (trimL p.2) st.z with
                    | error e => simp [hb] at h
                    | ok z2 =>
                      simp only [hb] at h
                      cases h
                      exact hnt
              | comment =>
                rw [hc] at h
                cases h
                exact hnt

theorem runItems_eq_feuille (R Rf : Registry) (sing singf : Nat → Bool) :
    ∀ (items : List Str), (∀ item ∈ items, item ≠ cTSTART) →
    ∀ st, Ctx.tag ∉ st.stack →
      runItems R sing items st = feuilleRun Rf singf items st := by
  intro items
  induction items with
  | nil =>
    intro _ st _
    rfl
  | cons item rest ih =>
    intro hni st hnt
    have hit : item ≠ cTSTART := hni item (List.mem_cons_self _ _)
    have htag : topCtx st ≠ .tag := by
      intro hc
      apply hnt
      unfold topCtx at hc
      cases hs : st.stack with
      | nil =>
        rw [hs] at hc
        exact absurd hc (by decide)
      | cons c l =>
        rw [hs] at hc
        simp only [List.headD_cons] at hc
        rw [← hc]
        exact List.mem_cons_self _ _
    simp only [runItems, feuilleRun]
    rw [← step_eq_feuille R Rf sing singf st item hit htag]
    cases hstep : step R sing st item with
    | error e => rfl
    | ok st2 =>
      exact ih (fun i hi => hni i (List.mem_cons_of_mem _ hi)) st2
        (step_no_tag R sing st st2 item hit hnt hstep)

/-- C10: on every template that contains no tag-open delimiter, the Sontag
parser and the earlier engine's parser behave identically: either both
reject with the same error (at the same token), or both accept with trees
whose Text and Expression leaf payloads coincide in document order. -/
theorem feuille_refinement (R Rf : Registry) (sing singf : Nat → Bool)
    (s : String) (h : hasTS s.data = false) :
    (∃ e, parse R sing s = .error e ∧ feuilleParse Rf singf s = .error e) ∨
    (∃ t tf, parse R sing s = .ok t ∧ feuilleParse Rf singf s = .ok tf ∧
      flattenT t = flattenT tf) := by
  have heq : parse R sing s = feuilleParse Rf singf s := by
    unfold parse feuilleParse parseItems feuilleParseItems
    rw [runItems_eq_feuille R Rf sing singf (tokenize s.data)
      (tokenize_no_ts s.data h) initState (by decide)]
  cases hp : feuilleParse Rf singf s with
  | error e => exact Or.inl ⟨e, heq.trans hp, rfl⟩
  | ok t => exact Or.inr ⟨t, t, heq.trans hp, rfl, rfl⟩

/-
  C1 — round trip: parse success and leaf flattening on well-nested
  templates.  The proof folds the printed item sequence of a template
  skeleton through the step function, one grammar production at a time.
-/

theorem runItems_cons_ok (R : Registry) (sing : Nat → Bool) {st st2 : PState}
    (item : Str) (rest : List Str) (h : step R sing st item = .ok st2) :
    runItems R sing (item :: rest) st = runItems R sing rest st2 := by
  simp only [runItems]
  rw [h]

theorem step_lit_content (R : Registry) (sing : Nat → Bool) (stk : List Ctx)
    (z : Zipper) (s : Str) (hs : notTok s = true) :
    step R sing ⟨Ctx.content :: stk, z⟩ s =
      .ok ⟨Ctx.content :: stk, appendLeaf z (.text s)⟩ := by
  simp only [notTok, Bool.and_eq_true, decide_eq_true_eq] at hs
  obtain ⟨⟨⟨⟨⟨hts, hte⟩, hes⟩, hee⟩, hcs⟩, hce⟩ := hs
  unfold step
  rw [if_neg hcs, if_neg hce,
    if_neg (show ¬(topCtx ⟨Ctx.content :: stk, z⟩ = Ctx.comment) by
      simp [topCtx]),
    if_neg hes, if_neg hts, if_neg hee, if_neg hte]
  rfl

theorem step_lit_expr (R : Registry) (sing : Nat → Bool) (stk : List Ctx)
    (z : Zipper) (s : Str) (hs : notTok s = true) :
    step R sing ⟨Ctx.expression :: stk, z⟩ s =
      .ok ⟨Ctx.expression :: stk, appendLeaf z (.expr s)⟩ := by
  simp only [notTok, Bool.and_eq_true, decide_eq_true_eq] at hs
  obtain ⟨⟨⟨⟨⟨hts, hte⟩, hes⟩, hee⟩, hcs⟩, hce⟩ := hs
  unfold step
  rw [if_neg hcs, if_neg hce,
    if_neg (show ¬(topCtx ⟨Ctx.expression :: stk, z⟩ = Ctx.comment) by
      simp [topCtx]),
    if_neg hes, if_neg hts, if_neg hee, if_neg hte]
  rfl

theorem step_absorb (R : Registry) (sing : Nat → Bool) (stk : List Ctx)
    (z : Zipper) (s : Str) (h1 : s ≠ cCSTART) (h2 : s ≠ cCEND) :
    step R sing ⟨Ctx.comment :: stk, z⟩ s = .ok ⟨Ctx.comment :: stk, z⟩ := by
  unfold step
  rw [if_neg h1, if_neg h2,
    if_pos (show topCtx ⟨Ctx.comment :: stk, z⟩ = Ctx.comment from rfl)]

theorem step_lit_tag (R : Registry) (sing : Nat → Bool) (stk : List Ctx)
    (z : Zipper) (s : Str) (hs : notTok s = true) :
    step R sing ⟨Ctx.tag :: stk, z⟩ s =
      tagStep R sing s ⟨Ctx.tag :: stk, z⟩ := by
  simp only [notTok, Bool.and_eq_true, decide_eq_true_eq] at hs
  obtain ⟨⟨⟨⟨⟨hts, hte⟩, hes⟩, hee⟩, hcs⟩, hce⟩ := hs
  unfold step
  rw [if_neg hcs, if_neg hce,
    if_neg (show ¬(topCtx ⟨Ctx.tag :: stk, z⟩ = Ctx.comment) by
      simp [topCtx]),
    if_neg hes, if_neg hts, if_neg hee, if_neg hte]
  rfl

theorem step_tag_item (R : Registry) (sing : Nat → Bool) (stk : List Ctx)
    (z : Zipper) (interior n cap : Str) (fam : Nat) (role : Role)
    {z2 : Zipper} (hnt : notTok interior = true)
    (htm : tagMatch interior = some (n, cap))
    (hR : R n = some (fam, role))
    (hb : buildStep fam role (sing fam) n (trimL cap) z = .ok z2) :
    step R sing ⟨Ctx.tag :: stk, z⟩ interior = .ok ⟨Ctx.tag :: stk, z2⟩ := by
  rw [step_lit_tag R sing stk z interior hnt]
  simp [tagStep, htm, hR, hb]

theorem run_printCB (R : Registry) (sing : Nat → Bool) :
    ∀ (cb : CB), WFcb cb = true →
    ∀ (rest : List Str) (stk : List Ctx) (z : Zipper),
      runItems R sing (printCB cb ++ rest) ⟨Ctx.comment :: stk, z⟩ =
        runItems R sing rest ⟨Ctx.comment :: stk, z⟩ := by
  intro cb
  induction cb with
  | nil =>
    intro _ rest stk z
    rfl
  | item s cb ih =>
    intro hwf rest stk z
    simp only [WFcb, Bool.and_eq_true, decide_eq_true_eq] at hwf
    obtain ⟨⟨h1, h2⟩, hcb⟩ := hwf
    show runItems R sing (s :: (printCB cb ++ rest)) _ = _
    rw [runItems_cons_ok R sing s _ (step_absorb R sing stk z s h1 h2)]
    exact ih hcb rest stk z
  | nest inner rest2 ih1 ih2 =>
    intro hwf rest stk z
    simp only [WFcb, Bool.and_eq_true] at hwf
    obtain ⟨hinner, hrest2⟩ := hwf
    show runItems R sing
        (cCSTART :: ((printCB inner ++ cCEND :: printCB rest2) ++ rest)) _ = _
    rw [runItems_cons_ok R sing cCSTART _
      (show step R sing ⟨Ctx.comment :: stk, z⟩ cCSTART =
        .ok ⟨Ctx.comment :: Ctx.comment :: stk, z⟩ from rfl)]
    rw [List.append_assoc, List.cons_append]
    rw [ih1 hinner (cCEND :: (printCB rest2 ++ rest)) (Ctx.comment :: stk) z]
    rw [runItems_cons_ok R sing cCEND _
      (show step R sing ⟨Ctx.comment :: Ctx.comment :: stk, z⟩ cCEND =
        .ok ⟨Ctx.comment :: stk, z⟩ from rfl)]
    exact ih2 hrest2 rest stk z

theorem trimL_cons_ws (c : Char) (l : Str) (h : isWS c = true) :
    trimL (c :: l) = trimL l := by
  unfold trimL
  simp [List.dropWhile_cons, h]

theorem tagMatch_interior (n sig : Str) (hn : n ≠ [])
    (hns : ∀ c ∈ n, isWS c = false) :
    ∃ cap, tagMatch (mkInterior n sig) = some (n, cap) ∧
      trimL cap = trimL sig := by
  obtain ⟨cap, h1, h2⟩ := tagMatch_shape [] n (' ' :: sig)
    (by simp) hn hns (by simp) rfl
  refine ⟨cap, ?_, ?_⟩
  · simpa [mkInterior] using h1
  · rw [h2, trimL_cons_ws ' ' sig rfl]

theorem mkInterior_ne_pair (n sig : Str) (hn : n ≠ []) (a b : Char)
    (hb : b ≠ ' ') : mkInterior n sig ≠ [a, b] := by
  cases n with
  | nil => exact absurd rfl hn
  | cons c n2 =>
    cases n2 with
    | nil =>
      intro h
      simp only [mkInterior, List.cons_append, List.nil_append] at h
      injection h with h1 h2
      injection h2 with h3 h4
      exact hb h3.symm
    | cons d n3 =>
      intro h
      simp only [mkInterior, List.cons_append] at h
      injection h with h1 h2
      injection h2 with h3 h4
      exact absurd h4 (by simp)

theorem mkInterior_notTok (n sig : Str) (hn : n ≠ []) :
    notTok (mkInterior n sig) = true := by
  simp only [notTok, Bool.and_eq_true, decide_eq_true_eq]
  exact ⟨⟨⟨⟨⟨mkInterior_ne_pair n sig hn _ _ (by decide),
    mkInterior_ne_pair n sig hn _ _ (by decide)⟩,
    mkInterior_ne_pair n sig hn _ _ (by decide)⟩,
    mkInterior_ne_pair n sig hn _ _ (by decide)⟩,
    mkInterior_ne_pair n sig hn _ _ (by decide)⟩,
    mkInterior_ne_pair n sig hn _ _ (by decide)⟩

theorem goodName_spec (n : Str) (h : goodName n = true) :
    n ≠ [] ∧ ∀ c ∈ n, isWS c = false := by
  simp only [goodName, Bool.and_eq_true, decide_eq_true_eq,
    List.all_eq_true] at h
  exact ⟨h.1, fun c hc => by simpa using h.2 c hc⟩

theorem run_printT (R : Registry) (sing : Nat → Bool) :
    ∀ (ast : Tpl), WFtpl R sing ast = true →
    ∀ (rest : List Str) (stk : List Ctx) (z : Zipper),
      runItems R sing (printT ast ++ rest) ⟨Ctx.content :: stk, z⟩ =
        runItems R sing rest
          ⟨Ctx.content :: stk, ⟨z.cur, z.ch ++ forest R sing ast, z.anc⟩⟩ := by
  intro ast
  induction ast with
  | nil =>
    intro _ rest stk z
    simp [printT, forest]
  | text s r ihr =>
    intro hwf rest stk z
    simp only [WFtpl, Bool.and_eq_true] at hwf
    obtain ⟨hs, hr⟩ := hwf
    show runItems R sing (s :: (printT r ++ rest)) _ = _
    rw [runItems_cons_ok R sing s _ (step_lit_content R sing stk z s hs)]
    rw [ihr hr rest stk (appendLeaf z (.text s))]
    simp [appendLeaf, forest, List.append_assoc]
  | expr s r ihr =>
    intro hwf rest stk z
    simp only [WFtpl, Bool.and_eq_true] at hwf
    obtain ⟨hs, hr⟩ := hwf
    show runItems R sing (cESTART :: s :: cEEND :: (printT r ++ rest)) _ = _
    rw [runItems_cons_ok R sing cESTART _
      (show step R sing ⟨Ctx.content :: stk, z⟩ cESTART =
        .ok ⟨Ctx.expression :: Ctx.content :: stk, z⟩ from rfl)]
    rw [runItems_cons_ok R sing s _
      (step_lit_expr R sing (Ctx.content :: stk) z s hs)]
    rw [runItems_cons_ok R sing cEEND _
      (show step R sing
          ⟨Ctx.expression :: Ctx.content :: stk, appendLeaf z (.expr s)⟩
          cEEND = .ok ⟨Ctx.content :: stk, appendLeaf z (.expr s)⟩ from rfl)]
    rw [ihr hr rest stk (appendLeaf z (.expr s))]
    simp [appendLeaf, forest, List.append_assoc]
  | comment cb r ihr =>
    intro hwf rest stk z
    simp only [WFtpl, Bool.and_eq_true] at hwf
    obtain ⟨hcb, hr⟩ := hwf
    show runItems R sing
        (cCSTART :: ((printCB cb ++ cCEND :: printT r) ++ rest)) _ = _
    rw [runItems_cons_ok R sing cCSTART _
      (show step R sing ⟨Ctx.content :: stk, z⟩ cCSTART =
        .ok ⟨Ctx.comment :: Ctx.content :: stk, z⟩ from rfl)]
    rw [List.append_assoc, List.cons_append]
    rw [run_printCB R sing cb hcb (cCEND :: (printT r ++ rest))
      (Ctx.content :: stk) z]
    rw [runItems_cons_ok R sing cCEND _
      (show step R sing ⟨Ctx.comment :: Ctx.content :: stk, z⟩ cCEND =
        .ok ⟨Ctx.content :: stk, z⟩ from rfl)]
    rw [ihr hr rest stk z]
    simp [forest]
  | stag n sig r ihr =>
    intro hwf rest stk z
    simp only [WFtpl, Bool.and_eq_true] at hwf
    obtain ⟨⟨hgn, hmtch⟩, hr⟩ := hwf
    obtain ⟨hn, hns⟩ := goodName_spec n hgn
    cases hRn : R n with
    | none =>
      rw [hRn] at hmtch
      exact absurd hmtch (by simp)
    | some p =>
      obtain ⟨fam, role⟩ := p
      rw [hRn] at hmtch
      cases role with
      | inside => exact absurd hmtch (by simp)
      | close => exact absurd hmtch (by simp)
      | start =>
        simp only at hmtch
        obtain ⟨cap, hcap, htrim⟩ := tagMatch_interior n sig hn hns
        have hb : buildStep fam Role.start (sing fam) n (trimL cap) z =
            .ok (appendLeaf z (.tagNode fam .start n (trimL cap) true)) := by
          simp [buildStep, hmtch]
        show runItems R sing
            (cTSTART :: mkInterior n sig :: cTEND :: (printT r ++ rest)) _ = _
        rw [runItems_cons_ok R sing cTSTART _
          (show step R sing ⟨Ctx.content :: stk, z⟩ cTSTART =
            .ok ⟨Ctx.tag :: Ctx.content :: stk, z⟩ from rfl)]
        rw [runItems_cons_ok R sing (mkInterior n sig) _
          (step_tag_item R sing (Ctx.content :: stk) z (mkInterior n sig)
            n cap fam .start (mkInterior_notTok n sig hn) hcap hRn hb)]
        rw [runItems_cons_ok R sing cTEND _
          (show step R sing ⟨Ctx.tag :: Ctx.content :: stk,
              appendLeaf z (.tagNode fam .start n (trimL cap) true)⟩ cTEND =
            .ok ⟨Ctx.content :: stk,
              appendLeaf z (.tagNode fam .start n (trimL cap) true)⟩ from
            rfl)]
        rw [ihr hr rest stk
          (appendLeaf z (.tagNode fam .start n (trimL cap) true))]
        rw [htrim]
        simp [appendLeaf, forest, famOfR, hRn, hmtch, List.append_assoc]
  | block n sig body en r ihbody ihr =>
    intro hwf rest stk z
    simp only [WFtpl, Bool.and_eq_true] at hwf
    obtain ⟨⟨⟨⟨hgn, hgen⟩, hmtch⟩, hbody⟩, hr⟩ := hwf
    obtain ⟨hn, hns⟩ := goodName_spec n hgn
    obtain ⟨hen, hens⟩ := goodName_spec en hgen
    cases hRn : R n with
    | none =>
      rw [hRn] at hmtch
      exact absurd hmtch (by simp)
    | some p =>
      obtain ⟨fam, role⟩ := p
      rw [hRn] at hmtch
      cases role with
      | inside => exact absurd hmtch (by simp)
      | close => exact absurd hmtch (by simp)
      | start =>
        cases hRen : R en with
        | none =>
          rw [hRen] at hmtch
          exact absurd hmtch (by simp)
        | some q =>
          obtain ⟨fam2, role2⟩ := q
          rw [hRen] at hmtch
          cases role2 with
          | inside => exact absurd hmtch (by simp)
          | start => exact absurd hmtch (by simp)
          | close =>
            simp only [Bool.and_eq_true, Bool.not_eq_true',
              decide_eq_true_eq] at hmtch
            obtain ⟨hnsing, hfam2⟩ := hmtch
            rw [hfam2] at hRen
            obtain ⟨cap, hcap, htrim⟩ := tagMatch_interior n sig hn hns
            obtain ⟨cape, hcape, htrime⟩ := tagMatch_interior en [] hen hens
            have hb1 : buildStep fam Role.start (sing fam) n (trimL cap) z =
                .ok (descend z (.tagNode fam .start n (trimL cap) false)) := by
              simp [buildStep, hnsing]
            have hb2 : buildStep fam Role.close (sing fam) en (trimL cape)
                ⟨.tagNode fam .start n (trimL cap) false,
                  forest R sing body, (z.cur, z.ch) :: z.anc⟩ =
                .ok ⟨z.cur, z.ch ++
                  [Tree.node (.tagNode fam .start n (trimL cap) false)
                    (forest R sing body)], z.anc⟩ := by
              simp [buildStep]
            show runItems R sing
                (cTSTART :: mkInterior n sig :: cTEND ::
                  ((printT body ++
                    cTSTART :: mkInterior en [] :: cTEND :: printT r) ++
                    rest)) _ = _
            rw [runItems_cons_ok R sing cTSTART _
              (show step R sing ⟨Ctx.content :: stk, z⟩ cTSTART =
                .ok ⟨Ctx.tag :: Ctx.content :: stk, z⟩ from rfl)]
            rw [runItems_cons_ok R sing (mkInterior n sig) _
              (step_tag_item R sing (Ctx.content :: stk) z (mkInterior n sig)
                n cap fam .start (mkInterior_notTok n sig hn) hcap hRn hb1)]
            rw [runItems_cons_ok R sing cTEND _
              (show step R sing ⟨Ctx.tag :: Ctx.content :: stk,
                  descend z (.tagNode fam .start n (trimL cap) false)⟩
                  cTEND =
                .ok ⟨Ctx.content :: stk,
                  descend z (.tagNode fam .start n (trimL cap) false)⟩ from
                rfl)]
            simp only [List.append_assoc, List.cons_append]
            rw [ihbody hbody
              (cTSTART :: mkInterior en [] :: cTEND :: (printT r ++ rest))
              stk (descend z (.tagNode fam .start n (trimL cap) false))]
            simp only [descend, List.nil_append]
            rw [runItems_cons_ok R sing cTSTART _
              (show step R sing (⟨Ctx.content :: stk,
                  ⟨.tagNode fam .start n (trimL cap) false,
                    forest R sing body, (z.cur, z.ch) :: z.anc⟩⟩ : PState)
                  cTSTART =
                .ok ⟨Ctx.tag :: Ctx.content :: stk,
                  ⟨.tagNode fam .start n (trimL cap) false,
                    forest R sing body, (z.cur, z.ch) :: z.anc⟩⟩ from rfl)]
            rw [runItems_cons_ok R sing (mkInterior en []) _
              (step_tag_item R sing (Ctx.content :: stk) _ (mkInterior en [])
                en cape fam .close (mkInterior_notTok en [] hen) hcape hRen
                hb2)]
            rw [runItems_cons_ok R sing cTEND _
              (show step R sing (⟨Ctx.tag :: Ctx.content :: stk,
                  ⟨z.cur, z.ch ++
                    [Tree.node (.tagNode fam .start n (trimL cap) false)
                      (forest R sing body)], z.anc⟩⟩ : PState) cTEND =
                .ok ⟨Ctx.content :: stk,
                  ⟨z.cur, z.ch ++
                    [Tree.node (.tagNode fam .start n (trimL cap) false)
                      (forest R sing body)], z.anc⟩⟩ from rfl)]
            rw [ihr hr rest stk
              ⟨z.cur, z.ch ++
                [Tree.node (.tagNode fam .start n (trimL cap) false)
                  (forest R sing body)], z.anc⟩]
            rw [htrim]
            simp [forest, famOfR, hRn, hnsing, List.append_assoc]
  | block2 n sig body inm insig ibody en r ihbody ihibody ihr =>
    intro hwf rest stk z
    simp only [WFtpl, Bool.and_eq_true] at hwf
    obtain ⟨⟨⟨⟨⟨⟨hgn, hgin⟩, hgen⟩, hmtch⟩, hbody⟩, hibody⟩, hr⟩ := hwf
    obtain ⟨hn, hns⟩ := goodName_spec n hgn
    obtain ⟨hin, hins⟩ := goodName_spec inm hgin
    obtain ⟨hen, hens⟩ := goodName_spec en hgen
    cases hRn : R n with
    | none =>
      rw [hRn] at hmtch
      exact absurd hmtch (by simp)
    | some p =>
      obtain ⟨fam, role⟩ := p
      rw [hRn] at hmtch
      cases role with
      | inside => exact absurd hmtch (by simp)
      | close => exact absurd hmtch (by simp)
      | start =>
        cases hRin : R inm with
        | none =>
          rw [hRin] at hmtch
          exact absurd hmtch (by simp)
        | some pi =>
          obtain ⟨fam3, role3⟩ := pi
          rw [hRin] at hmtch
          cases role3 with
          | start => exact absurd hmtch (by simp)
          | close => exact absurd hmtch (by simp)
          | inside =>
            cases hRen : R en with
            | none =>
              rw [hRen] at hmtch
              exact absurd hmtch (by simp)
            | some q =>
              obtain ⟨fam2, role2⟩ := q
              rw [hRen] at hmtch
              cases role2 with
              | inside => exact absurd hmtch (by simp)
              | start => exact absurd hmtch (by simp)
              | close =>
                simp only [Bool.and_eq_true, Bool.not_eq_true',
                  decide_eq_true_eq] at hmtch
                obtain ⟨⟨hnsing, hfam3⟩, hfam2⟩ := hmtch
                rw [hfam3] at hRin
                rw [hfam2] at hRen
                obtain ⟨cap, hcap, htrim⟩ := tagMatch_interior n sig hn hns
                obtain ⟨capi, hcapi, htrimi⟩ :=
                  tagMatch_interior inm insig hin hins
                obtain ⟨cape, hcape, htrime⟩ :=
                  tagMatch_interior en [] hen hens
                have hb1 : buildStep fam Role.start (sing fam) n
                    (trimL cap) z =
                    .ok (descend z
                      (.tagNode fam .start n (trimL cap) false)) := by
                  simp [buildStep, hnsing]
                have hbI : buildStep fam Role.inside (sing fam) inm
                    (trimL capi)
                    ⟨.tagNode fam .start n (trimL cap) false,
                      forest R sing body, (z.cur, z.ch) :: z.anc⟩ =
                    .ok (descend
                      ⟨.tagNode fam .start n (trimL cap) false,
                        forest R sing body, (z.cur, z.ch) :: z.anc⟩
                      (.tagNode fam .inside inm (trimL capi) false)) := by
                  simp [buildStep, hnsing]
                have hbE : buildStep fam Role.close (sing fam) en
                    (trimL cape)
                    ⟨.tagNode fam .inside inm (trimL capi) false,
                      forest R sing ibody,
                      (NK.tagNode fam .start n (trimL cap) false,
                        forest R sing body) :: (z.cur, z.ch) :: z.anc⟩ =
                    .ok ⟨z.cur, z.ch ++
                      [Tree.node (.tagNode fam .start n (trimL cap) false)
                        (forest R sing body ++
                          [Tree.node
                            (.tagNode fam .inside inm (trimL capi) false)
                            (forest R sing ibody)])], z.anc⟩ := by
                  simp [buildStep]
                show runItems R sing
                    (cTSTART :: mkInterior n sig :: cTEND ::
                      ((printT body ++
                        cTSTART :: mkInterior inm insig :: cTEND ::
                          (printT ibody ++
                            cTSTART :: mkInterior en [] :: cTEND ::
                              printT r)) ++ rest)) _ = _
                rw [runItems_cons_ok R sing cTSTART _
                  (show step R sing ⟨Ctx.content :: stk, z⟩ cTSTART =
                    .ok ⟨Ctx.tag :: Ctx.content :: stk, z⟩ from rfl)]
                rw [runItems_cons_ok R sing (mkInterior n sig) _
                  (step_tag_item R sing (Ctx.content :: stk) z
                    (mkInterior n sig) n cap fam .start
                    (mkInterior_notTok n sig hn) hcap hRn hb1)]
                rw [runItems_cons_ok R sing cTEND _
                  (show step R sing ⟨Ctx.tag :: Ctx.content :: stk,
                      descend z (.tagNode fam .start n (trimL cap) false)⟩
                      cTEND =
                    .ok ⟨Ctx.content :: stk,
                      descend z
                        (.tagNode fam .start n (trimL cap) false)⟩ from
                    rfl)]
                simp only [List.append_assoc, List.cons_append]
                rw [ihbody hbody
                  (cTSTART :: mkInterior inm insig :: cTEND ::
                    (printT ibody ++
                      cTSTART :: mkInterior en [] :: cTEND ::
                        (printT r ++ rest)))
                  stk (descend z (.tagNode fam .start n (trimL cap) false))]
                simp only [descend, List.nil_append]
                rw [runItems_cons_ok R sing cTSTART _
                  (show step R sing (⟨Ctx.content :: stk,
                      ⟨.tagNode fam .start n (trimL cap) false,
                        forest R sing body, (z.cur, z.ch) :: z.anc⟩⟩ :
                      PState) cTSTART =
                    .ok ⟨Ctx.tag :: Ctx.content :: stk,
                      ⟨.tagNode fam .start n (trimL cap) false,
                        forest R sing body, (z.cur, z.ch) :: z.anc⟩⟩ from
                    rfl)]
                rw [runItems_cons_ok R sing (mkInterior inm insig) _
                  (step_tag_item R sing (Ctx.content :: stk) _
                    (mkInterior inm insig) inm capi fam .inside
                    (mkInterior_notTok inm insig hin) hcapi hRin hbI)]
                rw [runItems_cons_ok R sing cTEND _
                  (show step R sing (⟨Ctx.tag :: Ctx.content :: stk,
                      descend
                        ⟨.tagNode fam .start n (trimL cap) false,
                          forest R sing body, (z.cur, z.ch) :: z.anc⟩
                        (.tagNode fam .inside inm (trimL capi) false)⟩ :
                      PState) cTEND =
                    .ok ⟨Ctx.content :: stk,
                      descend
                        ⟨.tagNode fam .start n (trimL cap) false,
                          forest R sing body, (z.cur, z.ch) :: z.anc⟩
                        (.tagNode fam .inside inm (trimL capi) false)⟩ from
                    rfl)]
                rw [ihibody hibody
                  (cTSTART :: mkInterior en [] :: cTEND ::
                    (printT r ++ rest))
                  stk (descend
                    ⟨.tagNode fam .start n (trimL cap) false,
                      forest R sing body, (z.cur, z.ch) :: z.anc⟩
                    (.tagNode fam .inside inm (trimL capi) false))]
                simp only [descend, List.nil_append]
                rw [runItems_cons_ok R sing cTSTART _
                  (show step R sing (⟨Ctx.content :: stk,
                      ⟨.tagNode fam .inside inm (trimL capi) false,
                        forest R sing ibody,
                        (NK.tagNode fam .start n (trimL cap) false,
                          forest R sing body) :: (z.cur, z.ch) :: z.anc⟩⟩ :
                      PState) cTSTART =
                    .ok ⟨Ctx.tag :: Ctx.content :: stk,
                      ⟨.tagNode fam .inside inm (trimL capi) false,
                        forest R sing ibody,
                        (NK.tagNode fam .start n (trimL cap) false,
                          forest R sing body) :: (z.cur, z.ch) :: z.anc⟩⟩
                    from rfl)]
                rw [runItems_cons_ok R sing (mkInterior en []) _
                  (step_tag_item R sing (Ctx.content :: stk) _
                    (mkInterior en []) en cape fam .close
                    (mkInterior_notTok en [] hen) hcape hRen hbE)]
                rw [runItems_cons_ok R sing cTEND _
                  (show step R sing (⟨Ctx.tag :: Ctx.content :: stk,
                      ⟨z.cur, z.ch ++
                        [Tree.node
                          (.tagNode fam .start n (trimL cap) false)
                          (forest R sing body ++
                            [Tree.node
                              (.tagNode fam .inside inm (trimL capi) false)
                              (forest R sing ibody)])], z.anc⟩⟩ : PState)
                      cTEND =
                    .ok ⟨Ctx.content :: stk,
                      ⟨z.cur, z.ch ++
                        [Tree.node
                          (.tagNode fam .start n (trimL cap) false)
                          (forest R sing body ++
                            [Tree.node
                              (.tagNode fam .inside inm (trimL capi) false)
                              (forest R sing ibody)])], z.anc⟩⟩ from rfl)]
                rw [ihr hr rest stk
                  ⟨z.cur, z.ch ++
                    [Tree.node (.tagNode fam .start n (trimL cap) false)
                      (forest R sing body ++
                        [Tree.node
                          (.tagNode fam .inside inm (trimL capi) false)
                          (forest R sing ibody)])], z.anc⟩]
                rw [htrim, htrimi]
                simp [forest, famOfR, hRn, hRin, hnsing, List.append_assoc]


theorem flattenF_append (l1 l2 : List Tree) :
    flattenF (l1 ++ l2) = flattenF l1 ++ flattenF l2 := by
  induction l1 with
  | nil => simp [flattenF]
  | cons t ts ih => simp [flattenF, ih]

theorem flattenF_forest (R : Registry) (sing : Nat → Bool) :
    ∀ ast : Tpl, flattenF (forest R sing ast) = specContent ast := by
  intro ast
  induction ast with
  | nil => simp [forest, flattenF, specContent]
  | text s r ihr =>
    simp [forest, flattenF, flattenT, leafPayload, specContent, ihr]
  | expr s r ihr =>
    simp [forest, flattenF, flattenT, leafPayload, specContent, ihr]
  | comment cb r ihr => simp [forest, specContent, ihr]
  | stag n sig r ihr =>
    simp [forest, flattenF, flattenT, leafPayload, specContent, ihr]
  | block n sig body en r ihbody ihr =>
    simp [forest, flattenF, flattenT, leafPayload, specContent,
      flattenF_append, ihbody, ihr]
  | block2 n sig body inm insig ibody en r ihbody ihibody ihr =>
    simp [forest, flattenF, flattenT, leafPayload, specContent,
      flattenF_append, ihbody, ihibody, ihr]

/-- C1 (counterexample): the claim asserts that balanced delimiters plus
registered tag names suffice for parse to succeed.  The template holding
one registered non-singular start tag and nothing else has balanced
delimiters (the spec's scope automaton accepts it back at depth 1) and
only registered names, yet parse rejects it: the start tag is never
closed, so the cursor is not back at the root. -/
theorem balanced_registered_cx :
    balancedDelims (tokenize ("\x7b%b x%\x7d" : String).data) = true ∧
    R0 "b".data = some (0, Role.start) ∧
    parse R0 sing0 "\x7b%b x%\x7d" = .error .unterminated :=
  ⟨by decide, rfl, rfl⟩

/-- C1 (amended): for every template whose token stream prints a
well-nested skeleton — balanced delimiters arranged as text runs,
expressions, comments, singular tags, and properly closed non-singular tag
blocks with at most one Inside divider, all tag names registered with the
matching roles and families — parse succeeds, and the concatenation, in
document order, of the payloads of the resulting tree's Text and
Expression leaves equals the template's literal and expression content
with tag markup, comments and delimiter tokens excluded. -/
theorem parse_wellformed (R : Registry) (sing : Nat → Bool) (ast : Tpl)
    (s : String) (hwf : WFtpl R sing ast = true)
    (htok : tokenize s.data = printT ast) :
    parse R sing s = .ok (Tree.node NK.root (forest R sing ast)) ∧
    flattenT (Tree.node NK.root (forest R sing ast)) = specContent ast := by
  constructor
  · unfold parse parseItems initState
    rw [htok]
    have h := run_printT R sing ast hwf [] [] ⟨NK.root, [], []⟩
    rw [List.append_nil] at h
    rw [h]
    rfl
  · have h := flattenF_forest R sing ast
    simp [flattenT, leafPayload, h]

/-- Instantiating the amended C1 on the template
a-expression-block-of-hi: parse succeeds and the leaves flatten to the
content with markup excluded. -/
theorem parse_wellformed_witness :
    WFtpl R0 sing0 ast0 = true ∧
    tokenize ("a\x7b\x7bx\x7d\x7d\x7b%b %\x7dhi\x7b%endb %\x7d" : String).data =
      printT ast0 ∧
    parse R0 sing0 "a\x7b\x7bx\x7d\x7d\x7b%b %\x7dhi\x7b%endb %\x7d" =
      .ok (Tree.node NK.root (forest R0 sing0 ast0)) ∧
    flattenT (Tree.node NK.root (forest R0 sing0 ast0)) = specContent ast0 :=
  ⟨by decide, by decide,
   (parse_wellformed R0 sing0 ast0
     "a\x7b\x7bx\x7d\x7d\x7b%b %\x7dhi\x7b%endb %\x7d"
     (by decide) (by decide)).1,
   (parse_wellformed R0 sing0 ast0
     "a\x7b\x7bx\x7d\x7d\x7b%b %\x7dhi\x7b%endb %\x7d"
     (by decide) (by decide)).2⟩

/-- Instantiating C10 on the tag-free template a-expression-b: the two
parsers agree. -/
theorem feuille_refinement_witness :
    (∃ e, parse R0 sing0 "a\x7b\x7bx\x7d\x7db" = .error e ∧
      feuilleParse (fun _ => none) sing0 "a\x7b\x7bx\x7d\x7db" = .error e) ∨
    (∃ t tf, parse R0 sing0 "a\x7b\x7bx\x7d\x7db" = .ok t ∧
      feuilleParse (fun _ => none) sing0 "a\x7b\x7bx\x7d\x7db" = .ok tf ∧
      flattenT t = flattenT tf) :=
  feuille_refinement R0 (fun _ => none) sing0 sing0 "a\x7b\x7bx\x7d\x7db"
    (by decide)

end SontagM
